import Mathlib

/-!
Verification development for the `search-system` repository: a shallow
embedding of the VarByte codec, the block-compressed posting format, the
`InvertedList` cursor, the LRU list cache, the parser chunking logic and
the three DAAT query engines, together with proofs and refutations of the
specification claims.

Modelling conventions:
* Python `int` values that the code keeps non-negative are modelled as `ℕ`;
  where Python's arithmetic right shift on negative values matters
  (claim about `varbyte_encode` termination) we model the loop over `ℤ`
  with explicit fuel.
* Python `float` scores are modelled over an arbitrary `LinearOrderedField`
  so the same definitions can be instantiated at `ℚ` (for executable
  witnesses) and at `ℝ` with `Real.log` (for the BM25/IDF formulas of the
  code, which call `math.log`).
* `bytes` objects are modelled as `List ℕ` with elements below 256.
-/

set_option maxHeartbeats 1000000

namespace SearchSystem

/-- Sentinel docID for an exhausted cursor (`INF_DOCID = 1 << 62`). -/
def INF_DOCID : ℕ := 1 <<< 62

/-! ### VarByte codec (`src/search_system/shared/compression.py`) -/

/-- The per-integer loop of `varbyte_encode`, with structural fuel (the
wrapper `encNum` always supplies enough): repeatedly take the lowest
7 bits (`num & 0x7F`), shift right by 7, and set the MSB on every byte
except the last one of the integer. -/
def encNumGo : ℕ → ℕ → List ℕ
  | 0, n => [n % 128]
  | fuel + 1, n =>
      if n / 128 = 0 then [n % 128]
      else (n % 128 + 128) :: encNumGo fuel (n / 128)

/-- The byte encoding of one non-negative integer. -/
def encNum (n : ℕ) : List ℕ :=
  encNumGo n n

theorem encNumGo_fuel : ∀ (a b n : ℕ), n ≤ a → n ≤ b →
    encNumGo a n = encNumGo b n := by
  intro a
  induction a using Nat.strong_induction_on with
  | _ a ih =>
      intro b n h1 h2
      match a, h1 with
      | 0, h1 =>
          have hn : n = 0 := by omega
          subst hn
          match b with
          | 0 => rfl
          | b + 1 => simp [encNumGo]
      | a + 1, h1 =>
          match b with
          | 0 =>
              have hn : n = 0 := by omega
              subst hn
              simp [encNumGo]
          | b + 1 =>
              rw [encNumGo, encNumGo]
              by_cases hz : n / 128 = 0
              · rw [if_pos hz, if_pos hz]
              · rw [if_neg hz, if_neg hz]
                have hlt : n / 128 < n := Nat.div_lt_self (by omega) (by omega)
                rw [ih a (by omega) b (n / 128) (by omega) (by omega)]

theorem encNum_unfold (n : ℕ) :
    encNum n = if n / 128 = 0 then [n % 128]
      else (n % 128 + 128) :: encNum (n / 128) := by
  by_cases hz : n / 128 = 0
  · rw [if_pos hz, encNum]
    match n with
    | 0 => rfl
    | n + 1 => rw [encNumGo, if_pos hz]
  · rw [if_neg hz, encNum, encNum]
    have hpos : n ≠ 0 := by
      intro h0
      subst h0
      simp at hz
    match n, hpos with
    | n + 1, _ =>
        rw [encNumGo, if_neg hz]
        have hlt : (n + 1) / 128 < n + 1 := Nat.div_lt_self (by omega) (by omega)
        rw [encNumGo_fuel n ((n + 1) / 128) ((n + 1) / 128) (by omega) (le_refl _)]

/-- `varbyte_encode`: the outer loop appends the encoding of each integer
to the accumulated byte buffer. -/
def varbyte_encode (numbers : List ℕ) : List ℕ :=
  numbers.foldl (fun acc n => acc ++ encNum n) []

/-- One step of the `varbyte_decode` loop. State is
`(decoded_numbers, num, shift)`; the byte's low seven bits are ORed into
`num` at position `shift`; a set MSB continues the integer, a clear MSB
emits it and resets the accumulator. -/
def decodeStep (st : List ℕ × ℕ × ℕ) (b : ℕ) : List ℕ × ℕ × ℕ :=
  let out := st.1
  let num := st.2.1
  let shift := st.2.2
  let num2 := num ||| ((b &&& 127) <<< shift)
  if b &&& 128 ≠ 0 then (out, num2, shift + 7)
  else (out ++ [num2], 0, 0)

/-- `varbyte_decode`: fold the step over the byte stream and return the
emitted integers (a partially accumulated integer is dropped). -/
def varbyte_decode (encoded_bytes : List ℕ) : List ℕ :=
  (encoded_bytes.foldl decodeStep ([], 0, 0)).1

/-! Basic facts about the codec. -/

theorem encNum_eq_small {n : ℕ} (h : n < 128) : encNum n = [n] := by
  rw [encNum_unfold]
  simp [Nat.div_eq_of_lt h, Nat.mod_eq_of_lt h]

theorem encNum_eq_large {n : ℕ} (h : 128 ≤ n) :
    encNum n = (n % 128 + 128) :: encNum (n / 128) := by
  rw [encNum_unfold]
  have : n / 128 ≠ 0 := by
    have h1 : 1 ≤ n / 128 := (Nat.one_le_div_iff (by norm_num)).mpr h
    omega
  simp [this]

theorem varbyte_encode_nil : varbyte_encode [] = [] := rfl

theorem foldl_append_acc (l : List ℕ) (acc : List ℕ) :
    l.foldl (fun acc n => acc ++ encNum n) acc =
      acc ++ l.foldl (fun acc n => acc ++ encNum n) [] := by
  induction l generalizing acc with
  | nil => simp
  | cons x xs ih =>
      simp only [List.foldl_cons, List.nil_append]
      rw [ih (acc ++ encNum x), ih (encNum x), List.append_assoc]

theorem varbyte_encode_cons (x : ℕ) (xs : List ℕ) :
    varbyte_encode (x :: xs) = encNum x ++ varbyte_encode xs := by
  unfold varbyte_encode
  simp only [List.foldl_cons, List.nil_append]
  exact foldl_append_acc xs (encNum x)

theorem varbyte_encode_append (xs ys : List ℕ) :
    varbyte_encode (xs ++ ys) = varbyte_encode xs ++ varbyte_encode ys := by
  induction xs with
  | nil => simp [varbyte_encode_nil]
  | cons x xs ih => simp [varbyte_encode_cons, ih]

theorem encNum_ne_nil (n : ℕ) : encNum n ≠ [] := by
  rw [encNum_unfold]
  split <;> simp

/-- Auxiliary: ORing a value shifted above the accumulated bits is addition. -/
theorem lor_shift_eq_add {a b s : ℕ} (h : a < 2 ^ s) :
    a ||| (b <<< s) = a + b * 2 ^ s := by
  rw [Nat.shiftLeft_eq, Nat.lor_comm]
  have := Nat.mul_add_lt_is_or h b
  rw [Nat.mul_comm] at this
  omega

/-- Helper: low 7 bits of a byte. -/
theorem and_127_eq_mod (b : ℕ) : b &&& 127 = b % 128 := by
  have h : (127 : ℕ) = 2 ^ 7 - 1 := by norm_num
  rw [h, Nat.and_pow_two_sub_one_eq_mod]

/-- Helper: continuation bit of a byte below 256. -/
theorem and_128_small (b : ℕ) (hb : b < 256) :
    b &&& 128 = if b < 128 then 0 else 128 := by
  have h128 : (128 : ℕ) = 2 ^ 7 := by norm_num
  by_cases h : b < 128
  · rw [if_pos h]
    apply Nat.eq_of_testBit_eq
    intro i
    rw [Nat.testBit_and]
    by_cases hi : i = 7
    · subst hi
      rw [Nat.testBit_lt_two_pow (show b < 2 ^ 7 by norm_num at h ⊢; omega)]
      simp
    · rw [h128, Nat.testBit_two_pow]
      simp [Ne.symm hi]
  · rw [if_neg h]
    apply Nat.eq_of_testBit_eq
    intro i
    rw [Nat.testBit_and]
    by_cases hi : i = 7
    · subst hi
      have hb7 : b.testBit 7 = true := by
        rw [Nat.testBit_to_div_mod]
        have h2 : b / 128 = 1 := by omega
        norm_num [h2]
      rw [hb7, h128, Nat.testBit_two_pow]
      simp
    · rw [h128, Nat.testBit_two_pow]
      simp [Ne.symm hi]

/-- Decoding the bytes of one encoded integer starting from a partial
accumulator `(num, shift)` with `num < 2 ^ shift` emits exactly
`num + n * 2 ^ shift` and resets the accumulator. -/
theorem foldl_decodeStep_encNum (n : ℕ) :
    ∀ (out : List ℕ) (num shift : ℕ), num < 2 ^ shift →
      (encNum n).foldl decodeStep (out, num, shift) =
        (out ++ [num + n * 2 ^ shift], 0, 0) := by
  induction n using Nat.strong_induction_on with
  | _ n ih =>
    intro out num shift hnum
    by_cases h : n < 128
    · rw [encNum_eq_small h]
      simp only [List.foldl_cons, List.foldl_nil, decodeStep]
      rw [and_127_eq_mod, and_128_small n (by omega)]
      rw [if_pos h, Nat.mod_eq_of_lt h]
      rw [if_neg (show ¬((0 : ℕ) ≠ 0) by simp)]
      rw [lor_shift_eq_add hnum]
    · rw [encNum_eq_large (by omega)]
      simp only [List.foldl_cons, decodeStep]
      rw [and_127_eq_mod, and_128_small (n % 128 + 128) (by omega)]
      rw [if_neg (show ¬(n % 128 + 128 < 128) by omega)]
      rw [if_pos (show (128 : ℕ) ≠ 0 by norm_num)]
      have hmod : (n % 128 + 128) % 128 = n % 128 := by omega
      rw [hmod]
      have hnum2 : num + n % 128 * 2 ^ shift < 2 ^ (shift + 7) := by
        have h1 : n % 128 ≤ 127 := by omega
        have h2 : n % 128 * 2 ^ shift ≤ 127 * 2 ^ shift :=
          Nat.mul_le_mul_right _ h1
        have h3 : num + n % 128 * 2 ^ shift < 2 ^ shift + 127 * 2 ^ shift := by omega
        calc num + n % 128 * 2 ^ shift < 2 ^ shift + 127 * 2 ^ shift := h3
          _ = 2 ^ (shift + 7) := by ring
      rw [lor_shift_eq_add hnum]
      rw [ih (n / 128) (Nat.div_lt_self (by omega) (by omega)) out _ _ hnum2]
      congr 2
      have hsplit : n % 128 + 128 * (n / 128) = n := Nat.mod_add_div n 128
      have hpow : (2 : ℕ) ^ (shift + 7) = 2 ^ shift * 128 := by ring
      rw [hpow]
      congr 1
      calc num + n % 128 * 2 ^ shift + n / 128 * (2 ^ shift * 128)
          = num + (n % 128 + 128 * (n / 128)) * 2 ^ shift := by ring
        _ = num + n * 2 ^ shift := by rw [hsplit]

/-- The output component of the decode fold only ever grows at the end,
and the accumulator components do not depend on the output so far. -/
theorem foldl_decodeStep_out (p : List ℕ) :
    ∀ (out : List ℕ) (num shift : ℕ),
      p.foldl decodeStep (out, num, shift) =
        ((out ++ (p.foldl decodeStep ([], num, shift)).1,
          (p.foldl decodeStep ([], num, shift)).2)) := by
  induction p with
  | nil => simp
  | cons b p ih =>
      intro out num shift
      simp only [List.foldl_cons, decodeStep, List.nil_append]
      by_cases hb : b &&& 128 ≠ 0
      · simp only [if_pos hb]
        rw [ih out]
      · simp only [if_neg hb]
        rw [ih (out ++ [num ||| (b &&& 127) <<< shift]),
            ih [num ||| (b &&& 127) <<< shift]]
        simp

theorem decode_encode_append (xs : List ℕ) :
    ∀ r : List ℕ,
      (varbyte_encode xs ++ r).foldl decodeStep ([], 0, 0) =
        ((xs ++ (r.foldl decodeStep ([], 0, 0)).1,
          (r.foldl decodeStep ([], 0, 0)).2)) := by
  induction xs with
  | nil => intro r; rw [varbyte_encode_nil, List.nil_append]; simp
  | cons x xs ih =>
      intro r
      rw [varbyte_encode_cons, List.append_assoc, List.foldl_append]
      rw [foldl_decodeStep_encNum x [] 0 0 (by norm_num)]
      rw [foldl_decodeStep_out (varbyte_encode xs ++ r) ([] ++ [0 + x * 2 ^ 0])]
      rw [ih r]
      simp

/-- C5: VarByte codec round-trip: decoding the encoding of any finite
sequence of non-negative integers returns the sequence unchanged
(`varbyte_decode(varbyte_encode(xs)) == xs`). -/
theorem varbyte_roundtrip (xs : List ℕ) :
    varbyte_decode (varbyte_encode xs) = xs := by
  have h := decode_encode_append xs []
  rw [List.append_nil] at h
  rw [varbyte_decode, h]
  simp [varbyte_decode]

/-- Every byte of one integer's encoding except the last has the
continuation bit set (byte in `[128, 256)`). -/
theorem encNum_dropLast_cont (n : ℕ) :
    ∀ b ∈ (encNum n).dropLast, b &&& 128 ≠ 0 := by
  induction n using Nat.strong_induction_on with
  | _ n ih =>
    by_cases h : n < 128
    · rw [encNum_eq_small h]; simp
    · rw [encNum_eq_large (by omega)]
      intro b hb
      rw [List.dropLast_cons_of_ne_nil (encNum_ne_nil _)] at hb
      rcases List.mem_cons.mp hb with hb | hb
      · subst hb
        rw [and_128_small _ (by omega), if_neg (by omega)]
        norm_num
      · exact ih (n / 128) (Nat.div_lt_self (by omega) (by omega)) b hb

/-- Folding the decode step over continuation bytes only emits nothing. -/
theorem foldl_decodeStep_cont (q : List ℕ) :
    ∀ (out : List ℕ) (num shift : ℕ), (∀ b ∈ q, b &&& 128 ≠ 0) →
      (q.foldl decodeStep (out, num, shift)).1 = out := by
  induction q with
  | nil => simp
  | cons b q ih =>
      intro out num shift hq
      simp only [List.foldl_cons, decodeStep]
      rw [if_pos (hq b (by simp))]
      exact ih out _ _ (fun b hb => hq b (by simp [hb]))

theorem encNum_length_pos (n : ℕ) : 0 < (encNum n).length :=
  List.length_pos.mpr (encNum_ne_nil n)

/-- Encoded length of a longer prefix of the input dominates. -/
theorem encode_take_length_mono (xs : List ℕ) {i j : ℕ} (h : i ≤ j) :
    (varbyte_encode (xs.take i)).length ≤ (varbyte_encode (xs.take j)).length := by
  induction xs generalizing i j with
  | nil => simp
  | cons x xs ih =>
      cases i with
      | zero => simp [varbyte_encode_nil]
      | succ i =>
          cases j with
          | zero => omega
          | succ j =>
              simp only [List.take_succ_cons, varbyte_encode_cons, List.length_append]
              have := ih (Nat.le_of_succ_le_succ h)
              omega

/-- Decoding distributes over a leading fully-encoded integer. -/
theorem varbyte_decode_encNum_append (x : ℕ) (q : List ℕ) :
    varbyte_decode (encNum x ++ q) = x :: varbyte_decode q := by
  have h1 : encNum x = varbyte_encode [x] := by
    rw [varbyte_encode_cons, varbyte_encode_nil, List.append_nil]
  rw [varbyte_decode, h1, decode_encode_append [x] q]
  simp [varbyte_decode]

/-- C6: decoding a prefix `p` of `varbyte_encode xs` yields exactly the
longest prefix `xs.take j` of `xs` whose complete encodings fit within
`p`; a partially accumulated integer is discarded, never emitted. -/
theorem varbyte_decode_truncated (xs p r : List ℕ)
    (hpr : p ++ r = varbyte_encode xs) :
    ∃ j, j ≤ xs.length ∧ varbyte_decode p = xs.take j ∧
      (varbyte_encode (xs.take j)).length ≤ p.length ∧
      ∀ i, i ≤ xs.length →
        (varbyte_encode (xs.take i)).length ≤ p.length → i ≤ j := by
  induction xs generalizing p r with
  | nil =>
      refine ⟨0, by simp, ?_, by simp [varbyte_encode_nil],
        fun i hi _ => by simpa using hi⟩
      rw [varbyte_encode_nil] at hpr
      have hp : p = [] := (List.append_eq_nil.mp hpr).1
      simp [hp, varbyte_decode]
  | cons x xs ih =>
      rw [varbyte_encode_cons] at hpr
      by_cases hlen : p.length < (encNum x).length
      · -- p is a proper prefix of the first integer's encoding:
        -- it consists of continuation bytes only, so nothing is emitted.
        have hptake : p = (encNum x).take p.length := by
          have h1 : p = (p ++ r).take p.length := by
            rw [List.take_append_eq_append_take]
            simp
          rw [hpr, List.take_append_eq_append_take,
              Nat.sub_eq_zero_of_le (le_of_lt hlen)] at h1
          simpa using h1
        have hcont : ∀ b ∈ p, b &&& 128 ≠ 0 := by
          intro b hb
          apply encNum_dropLast_cont x
          rw [List.dropLast_eq_take]
          rw [hptake] at hb
          exact List.take_subset_take_left _ (by omega) hb
        refine ⟨0, by simp, ?_, by simp [varbyte_encode_nil], ?_⟩
        · rw [varbyte_decode, List.take_zero]
          exact foldl_decodeStep_cont p [] 0 0 hcont
        · intro i _ hi
          by_contra hgt
          have h1 : 1 ≤ i := by omega
          have h2 : (varbyte_encode ((x :: xs).take 1)).length ≤
              (varbyte_encode ((x :: xs).take i)).length :=
            encode_take_length_mono _ h1
          have h3 : varbyte_encode ((x :: xs).take 1) = encNum x := by
            simp [varbyte_encode_cons, varbyte_encode_nil]
          rw [h3] at h2
          omega
      · -- the first integer's encoding is a complete prefix of p.
        push_neg at hlen
        have hsplit : p = encNum x ++ p.drop (encNum x).length := by
          have h1 : p.take (encNum x).length = encNum x := by
            have h2 : (p ++ r).take (encNum x).length =
                (encNum x ++ varbyte_encode xs).take (encNum x).length := by
              rw [hpr]
            rw [List.take_left] at h2
            rw [List.take_append_eq_append_take,
                Nat.sub_eq_zero_of_le hlen] at h2
            simpa using h2
          conv_lhs => rw [← List.take_append_drop (encNum x).length p]
          rw [h1]
        set p2 := p.drop (encNum x).length with hp2
        have hrest : p2 ++ r = varbyte_encode xs := by
          refine List.append_cancel_left
            (show encNum x ++ (p2 ++ r) = encNum x ++ varbyte_encode xs
              from ?_)
          rw [← List.append_assoc, ← hsplit, hpr]
        obtain ⟨j, hj1, hj2, hj3, hj4⟩ := ih p2 r hrest
        refine ⟨j + 1, by simpa using hj1, ?_, ?_, ?_⟩
        · rw [hsplit, varbyte_decode_encNum_append, hj2, List.take_succ_cons]
        · rw [List.take_succ_cons, varbyte_encode_cons, List.length_append]
          have hplen : p.length = (encNum x).length + p2.length := by
            rw [hsplit]; simp
          omega
        · intro i hle hienc
          cases i with
          | zero => omega
          | succ i2 =>
              have hplen : p.length = (encNum x).length + p2.length := by
                rw [hsplit]; simp
              rw [List.take_succ_cons, varbyte_encode_cons,
                  List.length_append] at hienc
              have := hj4 i2 (by simpa using hle) (by omega)
              omega

/-! ### Termination behaviour of `varbyte_encode` over Python integers

Python integers are arbitrary-precision and `num >>= 7` is an arithmetic
right shift, i.e. floor division by 128 (`Int.fdiv`); `num & 0x7F` is the
non-negative residue `num % 128` (`Int.emod`). The per-integer loop of
`varbyte_encode` is modelled with explicit fuel; `none` means the loop
did not exit within `fuel` iterations. -/

def encNumIntFuel : ℕ → ℤ → Option (List ℤ)
  | 0, _ => none
  | fuel + 1, n =>
      let byte := n % 128
      let n2 := Int.fdiv n 128
      if n2 = 0 then some [byte]
      else
        match encNumIntFuel fuel n2 with
        | none => none
        | some bs => some ((byte + 128) :: bs)

/-- The full `varbyte_encode` over Python integers: encode each integer in
turn, appending to the buffer; the whole call diverges (`none`) as soon as
one per-integer loop diverges. -/
def varbyteEncodeIntFuel (fuel : ℕ) (numbers : List ℤ) : Option (List ℤ) :=
  numbers.foldl
    (fun acc n => acc.bind fun bs => (encNumIntFuel fuel n).map (bs ++ ·))
    (some [])

theorem encNumIntFuel_neg {n : ℤ} (hn : n < 0) :
    ∀ fuel, encNumIntFuel fuel n = none := by
  intro fuel
  induction fuel generalizing n with
  | zero => rfl
  | succ fuel ih =>
      have hfd : Int.fdiv n 128 = n / 128 := Int.fdiv_eq_ediv n (by norm_num)
      have hid : 128 * (n / 128) + n % 128 = n := Int.ediv_add_emod n 128
      have hmod : 0 ≤ n % 128 := Int.emod_nonneg n (by norm_num)
      have hne : Int.fdiv n 128 ≠ 0 := by
        rw [hfd]
        intro h0
        rw [h0] at hid
        omega
      have hneg : Int.fdiv n 128 < 0 := by
        rw [hfd]
        by_contra hge
        push_neg at hge
        have : 0 ≤ 128 * (n / 128) := by positivity
        omega
      rw [encNumIntFuel]
      simp only [if_neg hne, ih hneg]

/-- With enough fuel, the loop on a non-negative integer terminates and
produces exactly the bytes of `encNum`. -/
theorem encNumIntFuel_nonneg (fuel : ℕ) :
    ∀ n : ℕ, (encNum n).length ≤ fuel →
      encNumIntFuel fuel (n : ℤ) = some ((encNum n).map (Nat.cast ·)) := by
  induction fuel with
  | zero =>
      intro n hn
      have := encNum_length_pos n
      omega
  | succ fuel ih =>
      intro n hn
      have hfd : Int.fdiv (n : ℤ) 128 = ((n / 128 : ℕ) : ℤ) := by
        rw [Int.fdiv_eq_ediv _ (by norm_num)]
        omega
      have hmod : ((n : ℤ) % 128) = ((n % 128 : ℕ) : ℤ) := by omega
      by_cases h : n < 128
      · rw [encNumIntFuel]
        have hz : Int.fdiv (n : ℤ) 128 = 0 := by
          rw [hfd, Nat.div_eq_of_lt h]
          rfl
        simp only [if_pos hz]
        rw [encNum_eq_small h, hmod, Nat.mod_eq_of_lt h]
        simp
      · rw [encNumIntFuel]
        have hz : Int.fdiv (n : ℤ) 128 ≠ 0 := by
          rw [hfd]
          have : 1 ≤ n / 128 := (Nat.one_le_div_iff (by norm_num)).mpr (by omega)
          simp only [ne_eq, Int.natCast_eq_zero]
          omega
        simp only [if_neg hz]
        have hlen : (encNum (n / 128)).length ≤ fuel := by
          rw [encNum_eq_large (show 128 ≤ n by omega)] at hn
          simpa using Nat.le_of_succ_le_succ hn
        rw [hfd, ih (n / 128) hlen]
        have hrhs : encNum n = (n % 128 + 128) :: encNum (n / 128) :=
          encNum_eq_large (by omega)
        rw [hrhs]
        simp only [List.map_cons]
        rw [hmod]
        push_cast
        ring_nf

theorem varbyteEncodeIntFuel_none (fuel : ℕ) (xs : List ℤ) :
    xs.foldl
      (fun acc n => acc.bind fun bs => (encNumIntFuel fuel n).map (bs ++ ·))
      none = none := by
  induction xs with
  | nil => rfl
  | cons y ys ih =>
      simp only [List.foldl_cons, Option.none_bind]
      exact ih

theorem varbyteEncodeIntFuel_some (fuel : ℕ) (xs : List ℕ)
    (hfuel : ∀ x ∈ xs, (encNum x).length ≤ fuel) :
    ∀ bs : List ℤ,
      (xs.map (Nat.cast ·)).foldl
        (fun acc n => acc.bind fun b => (encNumIntFuel fuel n).map (b ++ ·))
        (some bs) = some (bs ++ (varbyte_encode xs).map (Nat.cast ·)) := by
  induction xs with
  | nil => intro bs; simp [varbyte_encode_nil]
  | cons x xs ih =>
      intro bs
      simp only [List.map_cons, List.foldl_cons, Option.some_bind]
      rw [encNumIntFuel_nonneg fuel x (hfuel x (by simp))]
      simp only [Option.map_some']
      rw [ih (fun y hy => hfuel y (by simp [hy])) (bs ++ (encNum x).map _)]
      rw [varbyte_encode_cons]
      simp

/-- C10: the `varbyte_encode` loop terminates on every finite list of
non-negative integers, producing exactly the `encNum` byte stream, and the
non-negativity precondition is necessary for totality: if the input
contains a negative integer, the per-integer loop never exits for any
amount of fuel, because Python's arithmetic right shift of a negative
value never reaches zero. -/
theorem varbyte_encode_termination :
    (∀ xs : List ℤ, (∀ x ∈ xs, 0 ≤ x) → ∃ fuel : ℕ,
        varbyteEncodeIntFuel fuel xs =
          some ((varbyte_encode (xs.map Int.toNat)).map (Nat.cast ·))) ∧
    (∀ (xs : List ℤ) (x : ℤ), x ∈ xs → x < 0 →
        ∀ fuel, varbyteEncodeIntFuel fuel xs = none) := by
  constructor
  · intro xs hpos
    refine ⟨((xs.map Int.toNat).map fun x => (encNum x).length).sum, ?_⟩
    have hxs : xs = (xs.map Int.toNat).map (Nat.cast ·) := by
      rw [List.map_map]
      conv_lhs => rw [← List.map_id xs]
      apply List.map_congr_left
      intro x hx
      simp [Int.toNat_of_nonneg (hpos x hx)]
    have key := varbyteEncodeIntFuel_some
      (((xs.map Int.toNat).map fun x => (encNum x).length).sum)
      (xs.map Int.toNat)
      (fun y hy => List.single_le_sum (by simp) _ (List.mem_map_of_mem _ hy))
      []
    rw [← hxs] at key
    rw [varbyteEncodeIntFuel, key]
    simp
  · intro xs x hmem hneg fuel
    rw [varbyteEncodeIntFuel]
    generalize hacc : (some [] : Option (List ℤ)) = acc
    clear hacc
    induction xs generalizing acc with
    | nil => simp at hmem
    | cons y ys ih =>
        rcases List.mem_cons.mp hmem with h | h
        · subst h
          simp only [List.foldl_cons]
          rw [encNumIntFuel_neg hneg fuel]
          have hnone : (acc.bind fun bs =>
              (Option.map (fun x => bs ++ x) none : Option (List ℤ))) = none := by
            cases acc <;> simp
          rw [hnone]
          exact varbyteEncodeIntFuel_none fuel ys
        · simp only [List.foldl_cons]
          exact ih h _

/-! ### Blockwise posting compression
(`encode_postings` in `src/search_system/indexer/indexer.py`,
`decode_postings` in `src/search_system/query/inverted_list.py`) -/

/-- The gap list of `encode_postings`: the first docID is absolute, each
subsequent entry is the difference to its predecessor. Python subtracts
over `ℤ`; on the strictly increasing inputs the indexer produces, the
truncated `ℕ` subtraction used here agrees with it. -/
def gapsOf : List ℕ → List ℕ
  | [] => []
  | x :: xs => x :: List.zipWith (fun a b => a - b) xs (x :: xs)

/-- `encode_postings`: gap-encode docIDs, then VarByte-compress docID gaps
and frequencies into two separate byte segments. -/
def encode_postings (doc_ids freqs : List ℕ) : List ℕ × List ℕ :=
  if doc_ids = [] then ([], [])
  else (varbyte_encode (gapsOf doc_ids), varbyte_encode freqs)

/-- The gap-to-absolute loop of `decode_postings`
(`decoded[i] += decoded[i-1]` for `i ≥ 1`), expressed with the running
absolute value as accumulator; the whole decoded list is `absFrom 0 gaps`. -/
def absFrom (acc : ℕ) : List ℕ → List ℕ
  | [] => []
  | g :: gs => (acc + g) :: absFrom (acc + g) gs

/-- `decode_postings`: VarByte-decode both segments and convert the docID
gaps back to absolute values. -/
def decode_postings (encoded_doc_ids encoded_freqs : List ℕ) :
    List ℕ × List ℕ :=
  (absFrom 0 (varbyte_decode encoded_doc_ids),
   varbyte_decode encoded_freqs)

theorem absFrom_zipWith_sub (xs : List ℕ) :
    ∀ prev : ℕ, List.Chain (· ≤ ·) prev xs →
      absFrom prev (List.zipWith (fun a b => a - b) xs (prev :: xs)) = xs := by
  induction xs with
  | nil => intro prev _; rfl
  | cons y ys ih =>
      intro prev hch
      rcases List.chain_cons.mp hch with ⟨hle, hch2⟩
      simp only [List.zipWith_cons_cons, absFrom]
      rw [Nat.add_sub_cancel' hle]
      rw [ih y hch2]

theorem absFrom_gapsOf (doc_ids : List ℕ)
    (hsorted : List.Chain' (· ≤ ·) doc_ids) :
    absFrom 0 (gapsOf doc_ids) = doc_ids := by
  cases doc_ids with
  | nil => rfl
  | cons x xs =>
      simp only [gapsOf, absFrom, Nat.zero_add]
      rw [absFrom_zipWith_sub xs x hsorted]

/-- C7: per-block gap round-trip. For strictly increasing docIDs and an
equal-length frequency list, `decode_postings` inverts `encode_postings`
exactly, and the reconstructed (prefix-summed) docID sequence is strictly
increasing. -/
theorem decode_encode_postings (doc_ids freqs : List ℕ)
    (hsorted : List.Chain' (· < ·) doc_ids)
    (hlen : doc_ids.length = freqs.length) :
    decode_postings (encode_postings doc_ids freqs).1
        (encode_postings doc_ids freqs).2 = (doc_ids, freqs) ∧
      List.Chain' (· < ·)
        (decode_postings (encode_postings doc_ids freqs).1
          (encode_postings doc_ids freqs).2).1 := by
  by_cases hnil : doc_ids = []
  · subst hnil
    have hfr : freqs = [] := List.eq_nil_of_length_eq_zero (by simpa using hlen.symm)
    subst hfr
    constructor
    · simp [encode_postings, decode_postings, varbyte_decode, absFrom]
    · simp [encode_postings, decode_postings, varbyte_decode, absFrom]
  · have henc : encode_postings doc_ids freqs =
        (varbyte_encode (gapsOf doc_ids), varbyte_encode freqs) := by
      rw [encode_postings, if_neg hnil]
    rw [henc]
    have hdec : decode_postings (varbyte_encode (gapsOf doc_ids))
        (varbyte_encode freqs) = (doc_ids, freqs) := by
      rw [decode_postings, varbyte_roundtrip, varbyte_roundtrip]
      rw [absFrom_gapsOf doc_ids (List.Chain'.imp (fun a b h => le_of_lt h) hsorted)]
    rw [hdec]
    exact ⟨rfl, by simpa using hsorted⟩

/-! ### The `InvertedList` cursor
(`src/search_system/query/inverted_list.py`)

The static part mirrors what `__init__` derives from the lexicon entry and
the index file. Since `load_block i` always seeks to the same offsets and
decodes the same two byte segments for a given `i`, the model stores the
per-block decoded `(docIDs, freqs)` pairs in `blockData`; the pipeline
model below builds `blockData` by slicing the index byte stream and
calling `decode_postings`, exactly as `load_block` does. Scores live in
an arbitrary `LinearOrderedField α`; Python's `curr_idx = -1` initial
value for a cursor without blocks is represented as `0` (with no blocks,
`curr_block_docIDs` is `[]` and every use of `curr_idx` is guarded by
emptiness checks, so the two are observationally equal). -/

structure InvertedList (α : Type) where
  blockData : List (List ℕ × List ℕ)
  block_last_doc_ids : List ℕ
  block_max_scores : List α
  max_score : α
  idf : α
  avg_len : α
  k1 : α
  b : α
  page_table : List (ℕ × ℕ)
  df : ℕ
  curr_block_idx : ℕ
  curr_idx : ℕ
  curr_block_docIDs : List ℕ
  curr_block_freqs : List ℕ
  doc_id : ℕ
  deriving Repr

variable {α : Type} [LinearOrderedField α]

/-- Number of blocks of the term (`self.block_count`). -/
def InvertedList.block_count (c : InvertedList α) : ℕ :=
  c.blockData.length

/-- The docID component of block `i`. -/
def InvertedList.blockDocs (c : InvertedList α) (i : ℕ) : List ℕ :=
  (c.blockData.getD i ([], [])).1

/-- The frequency component of block `i`. -/
def InvertedList.blockFreqs (c : InvertedList α) (i : ℕ) : List ℕ :=
  (c.blockData.getD i ([], [])).2

/-- All docIDs of the posting list in on-disk order. -/
def InvertedList.flatDocs (c : InvertedList α) : List ℕ :=
  (c.blockData.map Prod.fst).flatten

/-- `load_block`: decode one block into memory and reposition at its
start; out-of-range indices just clear the in-memory block. -/
def InvertedList.load_block (c : InvertedList α) (block_idx : ℕ) :
    InvertedList α :=
  if block_idx < c.block_count then
    { c with
      curr_block_docIDs := c.blockDocs block_idx
      curr_block_freqs := c.blockFreqs block_idx
      curr_block_idx := block_idx
      curr_idx := 0
      doc_id := (c.blockDocs block_idx).headD INF_DOCID }
  else
    { c with curr_block_docIDs := [], curr_block_freqs := [] }

/-- BM25 contribution (`getBM25`). -/
def InvertedList.getBM25 (c : InvertedList α) (freq : ℕ) (doc_len : ℕ) : α :=
  let numerator : α := (freq : α) * (c.k1 + 1)
  let denominator : α :=
    (freq : α) + c.k1 * (1 - c.b + c.b * ((doc_len : α) / c.avg_len))
  if denominator ≠ 0 then c.idf * (numerator / denominator) else 0

/-- `getScore`: BM25 contribution of the cursor's current posting if it
matches `doc_id`, else `0.0`. Document length defaults to 1 when the
docID is missing from the page table. -/
def InvertedList.getScore (c : InvertedList α) (doc_id : ℕ) : α :=
  if c.curr_block_docIDs = [] ∨ c.curr_block_freqs = [] then 0
  else if c.curr_block_docIDs.length ≤ c.curr_idx then 0
  else if c.curr_block_docIDs.getD c.curr_idx 0 ≠ doc_id then 0
  else
    let freq := c.curr_block_freqs.getD c.curr_idx 0
    let doc_len := ((c.page_table.lookup doc_id).getD 1)
    c.getBM25 freq doc_len

/-- The loop body of CPython's `bisect.bisect_left(arr, k, lo, hi)`,
with structural fuel (the wrapper always supplies enough). -/
def bisectGo (arr : List ℕ) (x : ℕ) : ℕ → ℕ → ℕ → ℕ
  | 0, lo, _ => lo
  | fuel + 1, lo, hi =>
      if lo < hi then
        let mid := (lo + hi) / 2
        if arr.getD mid 0 < x then bisectGo arr x fuel (mid + 1) hi
        else bisectGo arr x fuel lo mid
      else lo

/-- `bisect.bisect_left` on a slice `[lo, hi)`. -/
def bisect_left (arr : List ℕ) (x lo hi : ℕ) : ℕ :=
  bisectGo arr x (hi + 1) lo hi

/-- The exponential probe loop of `galloping_search`
(`while i < len(arr) and arr[i] < k: i += step; step *= 2`), with
structural fuel; `s + 1` is the current step, starting at 1 and doubling. -/
def gallopGo (arr : List ℕ) (k : ℕ) : ℕ → ℕ → ℕ → ℕ
  | 0, i, _ => i
  | fuel + 1, i, s =>
      if i < arr.length ∧ arr.getD i 0 < k then
        gallopGo arr k fuel (i + (s + 1)) (2 * s + 1)
      else i

/-- `galloping_search`: find the first index `≥ start`-ish whose entry is
`≥ k` by exponential probing followed by binary search on the final
bracket. -/
def galloping_search (arr : List ℕ) (k start : ℕ) : ℕ :=
  if arr = [] ∨ arr.getLastD 0 < k then arr.length
  else
    let i := gallopGo arr k (arr.length + 1) start 0
    let lo := i / 2
    let hi := min i arr.length
    bisect_left arr k lo hi

/-- The block-skipping `while` loop at the top of `nextGEQ`, with
structural fuel. The boolean records whether the loop hit the end of the
block list and `nextGEQ` already returned `INF_DOCID`. -/
def skipGo (k : ℕ) : ℕ → InvertedList α → InvertedList α × Bool
  | 0, c => (c, false)
  | fuel + 1, c =>
      if c.curr_block_idx < c.block_count ∧
          c.block_last_doc_ids.getD c.curr_block_idx 0 < k then
        let c1 := { c with curr_block_idx := c.curr_block_idx + 1 }
        if c1.block_count ≤ c1.curr_block_idx then
          ({ c1 with doc_id := INF_DOCID }, true)
        else skipGo k fuel (c1.load_block c1.curr_block_idx)
      else (c, false)

/-- The outer `while True` loop of `nextGEQ`, with structural fuel. -/
def nextGEQGo (k : ℕ) : ℕ → InvertedList α → InvertedList α
  | 0, c => c
  | fuel + 1, c =>
      let r := skipGo k (c.block_count + 1) c
      if r.2 then r.1
      else
        let c1 := r.1
        if c1.curr_block_docIDs ≠ [] ∧ k ≤ c1.curr_block_docIDs.getLastD 0 then
          let i := galloping_search c1.curr_block_docIDs k c1.curr_idx
          { c1 with curr_idx := i, doc_id := c1.curr_block_docIDs.getD i 0 }
        else
          let c2 := { c1 with curr_block_idx := c1.curr_block_idx + 1 }
          if c2.block_count ≤ c2.curr_block_idx then
            { c2 with doc_id := INF_DOCID }
          else nextGEQGo k fuel (c2.load_block c2.curr_block_idx)

/-- `nextGEQ(k)`: advance `doc_id` to the next docID `≥ k`, skipping
whole blocks via `last_doc_id` metadata. The fuel bound dominates the
number of loop iterations, each of which strictly increases
`curr_block_idx`. -/
def InvertedList.nextGEQ (c : InvertedList α) (k : ℕ) : InvertedList α :=
  nextGEQGo k (c.block_count + 1) c

/-- `reset`: reposition to block 0, index 0 (for a cursor without blocks,
Python sets `curr_idx = -1`, represented here as `0`). -/
def InvertedList.reset (c : InvertedList α) : InvertedList α :=
  let c0 := { c with curr_block_idx := 0 }
  if 0 < c0.block_count then
    let c1 := c0.load_block 0
    { c1 with curr_idx := 0, doc_id := c1.curr_block_docIDs.getD 0 0 }
  else
    { c0 with curr_idx := 0, doc_id := INF_DOCID }

/-- `curr_block_max`: the precomputed upper bound of the current block. -/
def InvertedList.curr_block_max (c : InvertedList α) : α :=
  if c.curr_block_idx < c.block_max_scores.length then
    c.block_max_scores.getD c.curr_block_idx 0
  else 0

/-- `advance_to_next_block`: jump to the next block, or mark the cursor
exhausted. -/
def InvertedList.advance_to_next_block (c : InvertedList α) : InvertedList α :=
  if c.curr_block_idx + 1 < c.block_count then
    c.load_block (c.curr_block_idx + 1)
  else
    { c with doc_id := INF_DOCID }

/-! ### Sorted-list search helpers -/

/-- The number of entries smaller than `x`; on a sorted list this is the
index of the first entry `≥ x` (or the length if there is none). -/
def countLT (l : List ℕ) (x : ℕ) : ℕ :=
  l.countP (fun d => decide (d < x))

theorem countLT_le_length (l : List ℕ) (x : ℕ) : countLT l x ≤ l.length :=
  List.countP_le_length _

theorem countLT_iff (x : ℕ) :
    ∀ (l : List ℕ), l.Pairwise (· ≤ ·) →
      ∀ i < l.length, (l.getD i 0 < x ↔ i < countLT l x) := by
  intro l
  induction l with
  | nil => intro _ i hi; simp at hi
  | cons a as ih =>
      intro hp i hi
      rcases List.pairwise_cons.mp hp with ⟨ha, has⟩
      have hcount : countLT (a :: as) x =
          countLT as x + if a < x then 1 else 0 := by
        simp [countLT, List.countP_cons]
      cases i with
      | zero =>
          simp only [List.getD_cons_zero, hcount]
          by_cases hax : a < x
          · simp [hax]
          · have hz : countLT as x = 0 := by
              rw [countLT, List.countP_eq_zero]
              intro b hb
              simp only [decide_eq_true_eq]
              intro hbx
              exact hax (lt_of_le_of_lt (ha b hb) hbx)
            simp [hax, hz]
      | succ i =>
          simp only [List.getD_cons_succ, hcount]
          have hi2 : i < as.length := by simpa using hi
          rw [ih has i hi2]
          by_cases hax : a < x
          · simp [hax]
          · have hz : countLT as x = 0 := by
              rw [countLT, List.countP_eq_zero]
              intro b hb
              simp only [decide_eq_true_eq]
              intro hbx
              exact hax (lt_of_le_of_lt (ha b hb) hbx)
            simp [hax, hz]

/-- The smallest entry `≥ k` of a sorted list, `INF_DOCID` if none. -/
def leastGEQ (l : List ℕ) (k : ℕ) : ℕ :=
  (l.filter (fun d => k ≤ d)).headD INF_DOCID

theorem leastGEQ_all_lt {l : List ℕ} {k : ℕ} (h : ∀ d ∈ l, d < k) :
    leastGEQ l k = INF_DOCID := by
  rw [leastGEQ, List.filter_eq_nil_iff.mpr]
  · rfl
  · intro d hd
    simpa using Nat.not_le_of_lt (h d hd)

theorem leastGEQ_append_left {A B : List ℕ} {k : ℕ}
    (h : ∀ d ∈ A, d < k) :
    leastGEQ (A ++ B) k = leastGEQ B k := by
  rw [leastGEQ, List.filter_append, List.filter_eq_nil_iff.mpr, List.nil_append]
  · rfl
  · intro d hd
    simpa using Nat.not_le_of_lt (h d hd)

theorem leastGEQ_append_right {A B : List ℕ} {k : ℕ}
    (h : ∃ d ∈ A, k ≤ d) :
    leastGEQ (A ++ B) k = leastGEQ A k := by
  rw [leastGEQ, List.filter_append, leastGEQ]
  rcases h with ⟨d, hd, hkd⟩
  have hne : A.filter (fun d => decide (k ≤ d)) ≠ [] := by
    have hdm : d ∈ A.filter (fun d => decide (k ≤ d)) := by
      rw [List.mem_filter]
      exact ⟨hd, by simpa using hkd⟩
    exact List.ne_nil_of_mem hdm
  cases hA : A.filter (fun d => decide (k ≤ d)) with
  | nil => exact absurd hA hne
  | cons y ys => simp

theorem leastGEQ_eq_getD (k : ℕ) :
    ∀ (l : List ℕ), l.Pairwise (· ≤ ·) → countLT l k < l.length →
      leastGEQ l k = l.getD (countLT l k) 0 ∧ k ≤ leastGEQ l k := by
  intro l
  induction l with
  | nil => intro _ h; simp at h
  | cons a as ih =>
      intro hp hcount
      rcases List.pairwise_cons.mp hp with ⟨ha, has⟩
      by_cases hak : k ≤ a
      · have hz : countLT (a :: as) k = 0 := by
          rw [countLT, List.countP_eq_zero]
          intro b hb
          simp only [decide_eq_true_eq]
          rcases List.mem_cons.mp hb with hb | hb
          · omega
          · have := ha b hb; omega
        rw [hz]
        have : leastGEQ (a :: as) k = a := by
          rw [leastGEQ, List.filter_cons_of_pos (by simpa using hak)]
          rfl
        rw [this]
        exact ⟨rfl, hak⟩
      · push_neg at hak
        have hc : countLT (a :: as) k = countLT as k + 1 := by
          simp [countLT, List.countP_cons, hak]
        rw [hc] at hcount ⊢
        have hlt : countLT as k < as.length := by simpa using hcount
        have hres := ih has hlt
        have hfil : leastGEQ (a :: as) k = leastGEQ as k := by
          rw [leastGEQ, List.filter_cons_of_neg (by simpa using Nat.not_le_of_lt hak)]
          rfl
        rw [hfil, List.getD_cons_succ]
        exact hres

theorem bisectGo_spec (arr : List ℕ) (x : ℕ)
    (hsort : arr.Pairwise (· ≤ ·)) :
    ∀ (fuel lo hi : ℕ), hi ≤ arr.length → lo ≤ hi → hi - lo < fuel →
      bisectGo arr x fuel lo hi = min hi (max lo (countLT arr x)) := by
  intro fuel
  induction fuel with
  | zero => intro lo hi _ _ h; omega
  | succ fuel ih =>
      intro lo hi hhi hlo hfuel
      rw [bisectGo]
      by_cases hlt : lo < hi
      · rw [if_pos hlt]
        have hmid1 : lo ≤ (lo + hi) / 2 := by omega
        have hmid2 : (lo + hi) / 2 < hi := by omega
        have hmemlen : (lo + hi) / 2 < arr.length := by omega
        by_cases harr : arr.getD ((lo + hi) / 2) 0 < x
        · rw [if_pos harr]
          have hF : (lo + hi) / 2 < countLT arr x :=
            (countLT_iff x arr hsort _ hmemlen).mp harr
          rw [ih ((lo + hi) / 2 + 1) hi hhi (by omega) (by omega)]
          omega
        · rw [if_neg harr]
          have hF : countLT arr x ≤ (lo + hi) / 2 := by
            by_contra hgt
            push_neg at hgt
            exact harr ((countLT_iff x arr hsort _ hmemlen).mpr hgt)
          rw [ih lo ((lo + hi) / 2) (by omega) (by omega) (by omega)]
          omega
      · rw [if_neg hlt]
        omega

theorem gallopGo_spec (arr : List ℕ) (k : ℕ)
    (hsort : arr.Pairwise (· ≤ ·)) (hF : countLT arr k < arr.length) :
    ∀ (fuel i s : ℕ), s ≤ i → i ≤ 2 * countLT arr k + 1 →
      arr.length - i < fuel →
      countLT arr k ≤ gallopGo arr k fuel i s ∧
        gallopGo arr k fuel i s ≤ 2 * countLT arr k + 1 := by
  intro fuel
  induction fuel with
  | zero => intro i s _ _ h; omega
  | succ fuel ih =>
      intro i s hs hi hfuel
      rw [gallopGo]
      by_cases hcond : i < arr.length ∧ arr.getD i 0 < k
      · rw [if_pos hcond]
        have hiF : i < countLT arr k :=
          (countLT_iff k arr hsort i hcond.1).mp hcond.2
        exact ih (i + (s + 1)) (2 * s + 1) (by omega) (by omega) (by omega)
      · rw [if_neg hcond]
        push_neg at hcond
        constructor
        · by_cases hlen : i < arr.length
          · have := hcond hlen
            by_contra hgt
            push_neg at hgt
            exact absurd ((countLT_iff k arr hsort i hlen).mpr hgt) (by omega)
          · omega
        · exact hi

/-- Helper: `getLastD` as a positional access. -/
theorem getLastD_eq_getD (l : List ℕ) :
    l.getLastD 0 = l.getD (l.length - 1) 0 := by
  rw [List.getLastD_eq_getLast?, List.getLast?_eq_getElem?,
    List.getD_eq_getElem?_getD]

/-- `galloping_search` on a sorted block whose last entry is `≥ k`, started
at a position all of whose predecessors are `< k`, returns exactly the
index of the first entry `≥ k`. -/
theorem galloping_search_spec (arr : List ℕ) (k start : ℕ)
    (hsort : arr.Pairwise (· ≤ ·)) (hne : arr ≠ [])
    (hlast : k ≤ arr.getLastD 0)
    (hstart : ∀ j < start, arr.getD j 0 < k) :
    galloping_search arr k start = countLT arr k ∧
      countLT arr k < arr.length := by
  have hlen : 0 < arr.length := List.length_pos.mpr hne
  have hF : countLT arr k < arr.length := by
    by_contra hge
    push_neg at hge
    have heq : countLT arr k = arr.length :=
      le_antisymm (countLT_le_length arr k) hge
    have hl2 : arr.length - 1 < countLT arr k := by omega
    have := (countLT_iff k arr hsort (arr.length - 1) (by omega)).mpr hl2
    rw [← getLastD_eq_getD arr] at this
    omega
  refine ⟨?_, hF⟩
  rw [galloping_search, if_neg (by push_neg; exact ⟨hne, hlast⟩)]
  have hstartF : start ≤ countLT arr k := by
    by_cases h0 : start = 0
    · omega
    · have hj : start - 1 < start := by omega
      have := hstart (start - 1) hj
      by_cases hsl : start - 1 < arr.length
      · have := (countLT_iff k arr hsort (start - 1) hsl).mp this
        omega
      · -- start - 1 ≥ length: getD defaults to 0 < k; but then every
        -- index below length is below start, so all entries are < k,
        -- contradicting the last entry being ≥ k.
        exfalso
        have hall : ∀ j < arr.length, arr.getD j 0 < k := by
          intro j hjl
          exact hstart j (by omega)
        have := hall (arr.length - 1) (by omega)
        rw [← getLastD_eq_getD arr] at this
        omega
  have hgallop := gallopGo_spec arr k hsort hF (arr.length + 1) start 0
    (by omega) (by omega) (by omega)
  set r := gallopGo arr k (arr.length + 1) start 0 with hr
  have hbis := bisectGo_spec arr k hsort (min r arr.length + 1) (r / 2)
    (min r arr.length) (by omega) (by omega) (by omega)
  show bisect_left arr k (r / 2) (min r arr.length) = countLT arr k
  rw [bisect_left, hbis]
  omega

/-! ### `nextGEQ` semantics -/

/-- All fields of the cursor that traversal never modifies. -/
def InvertedList.StaticEq (c c2 : InvertedList α) : Prop :=
  c2.blockData = c.blockData ∧
  c2.block_last_doc_ids = c.block_last_doc_ids ∧
  c2.block_max_scores = c.block_max_scores ∧
  c2.max_score = c.max_score ∧
  c2.idf = c.idf ∧
  c2.avg_len = c.avg_len ∧
  c2.k1 = c.k1 ∧
  c2.b = c.b ∧
  c2.page_table = c.page_table ∧
  c2.df = c.df

theorem InvertedList.StaticEq.refl (c : InvertedList α) : c.StaticEq c :=
  ⟨rfl, rfl, rfl, rfl, rfl, rfl, rfl, rfl, rfl, rfl⟩

theorem InvertedList.StaticEq.trans {c1 c2 c3 : InvertedList α}
    (h1 : c1.StaticEq c2) (h2 : c2.StaticEq c3) : c1.StaticEq c3 := by
  obtain ⟨a1, a2, a3, a4, a5, a6, a7, a8, a9, a10⟩ := h1
  obtain ⟨b1, b2, b3, b4, b5, b6, b7, b8, b9, b10⟩ := h2
  exact ⟨b1.trans a1, b2.trans a2, b3.trans a3, b4.trans a4, b5.trans a5,
    b6.trans a6, b7.trans a7, b8.trans a8, b9.trans a9, b10.trans a10⟩

theorem InvertedList.load_block_static (c : InvertedList α) (i : ℕ) :
    c.StaticEq (c.load_block i) := by
  rw [InvertedList.load_block]
  split <;> exact ⟨rfl, rfl, rfl, rfl, rfl, rfl, rfl, rfl, rfl, rfl⟩

theorem InvertedList.StaticEq.block_count_eq {c c2 : InvertedList α}
    (h : c.StaticEq c2) : c2.block_count = c.block_count := by
  rw [InvertedList.block_count, InvertedList.block_count, h.1]

theorem InvertedList.StaticEq.blockDocs_eq {c c2 : InvertedList α}
    (h : c.StaticEq c2) (i : ℕ) : c2.blockDocs i = c.blockDocs i := by
  rw [InvertedList.blockDocs, InvertedList.blockDocs, h.1]

theorem InvertedList.StaticEq.blockFreqs_eq {c c2 : InvertedList α}
    (h : c.StaticEq c2) (i : ℕ) : c2.blockFreqs i = c.blockFreqs i := by
  rw [InvertedList.blockFreqs, InvertedList.blockFreqs, h.1]

theorem InvertedList.StaticEq.flatDocs_eq {c c2 : InvertedList α}
    (h : c.StaticEq c2) : c2.flatDocs = c.flatDocs := by
  rw [InvertedList.flatDocs, InvertedList.flatDocs, h.1]

/-- One-step equation: the skip loop guard fails. -/
theorem skipGo_guard_false {k : ℕ} {c : InvertedList α} (fuel : ℕ)
    (h : ¬(c.curr_block_idx < c.block_count ∧
      c.block_last_doc_ids.getD c.curr_block_idx 0 < k)) :
    skipGo k (fuel + 1) c = (c, false) := by
  rw [skipGo, if_neg h]

/-- One-step equation: the guard holds and the list of blocks ends. -/
theorem skipGo_guard_exit {k : ℕ} {c : InvertedList α} (fuel : ℕ)
    (hg : c.curr_block_idx < c.block_count ∧
      c.block_last_doc_ids.getD c.curr_block_idx 0 < k)
    (hend : c.block_count ≤ c.curr_block_idx + 1) :
    skipGo k (fuel + 1) c =
      ({ c with curr_block_idx := c.curr_block_idx + 1,
                doc_id := INF_DOCID }, true) := by
  rw [skipGo, if_pos hg]
  dsimp only [InvertedList.block_count]
  rw [if_pos (show c.blockData.length ≤ c.curr_block_idx + 1 from hend)]

/-- One-step equation: the guard holds and the next block is loaded. -/
theorem skipGo_guard_step {k : ℕ} {c : InvertedList α} (fuel : ℕ)
    (hg : c.curr_block_idx < c.block_count ∧
      c.block_last_doc_ids.getD c.curr_block_idx 0 < k)
    (hlt : c.curr_block_idx + 1 < c.block_count) :
    skipGo k (fuel + 1) c =
      skipGo k fuel
        (({ c with curr_block_idx := c.curr_block_idx + 1} :
          InvertedList α).load_block (c.curr_block_idx + 1)) := by
  rw [skipGo, if_pos hg]
  dsimp only [InvertedList.block_count]
  rw [if_neg (show ¬(c.blockData.length ≤ c.curr_block_idx + 1) from
    Nat.not_le.mpr hlt)]

/-- Reduced form of an in-range `load_block`. -/
theorem InvertedList.load_block_lt {c : InvertedList α} {i : ℕ}
    (h : i < c.block_count) :
    c.load_block i =
      { c with
        curr_block_docIDs := c.blockDocs i
        curr_block_freqs := c.blockFreqs i
        curr_block_idx := i
        curr_idx := 0
        doc_id := (c.blockDocs i).headD INF_DOCID } := by
  rw [InvertedList.load_block, if_pos h]

/-- Combined one-step equation: guard holds, next block loaded, all
projections reduced to fields of the original cursor. -/
theorem skipGo_guard_step2 {k : ℕ} {c : InvertedList α} (fuel : ℕ)
    (hg : c.curr_block_idx < c.block_count ∧
      c.block_last_doc_ids.getD c.curr_block_idx 0 < k)
    (hlt : c.curr_block_idx + 1 < c.block_count) :
    skipGo k (fuel + 1) c =
      skipGo k fuel
        { c with
          curr_block_docIDs := c.blockDocs (c.curr_block_idx + 1)
          curr_block_freqs := c.blockFreqs (c.curr_block_idx + 1)
          curr_block_idx := c.curr_block_idx + 1
          curr_idx := 0
          doc_id := (c.blockDocs (c.curr_block_idx + 1)).headD INF_DOCID } := by
  rw [skipGo_guard_step fuel hg hlt]
  rw [InvertedList.load_block_lt (show c.curr_block_idx + 1 <
    ({ c with curr_block_idx := c.curr_block_idx + 1} :
      InvertedList α).block_count from hlt)]
  rfl

/-- Complete description of one run of the block-skip loop. -/
theorem skipGo_spec (k : ℕ) :
    ∀ (fuel : ℕ) (c : InvertedList α),
      c.block_count ≤ c.curr_block_idx + fuel →
      (∃ c1, skipGo k fuel c = (c1, true) ∧ c.StaticEq c1 ∧
        c1.block_count ≤ c1.curr_block_idx ∧
        c1.doc_id = INF_DOCID ∧
        (∀ j, c.curr_block_idx ≤ j → j < c.block_count →
          c.block_last_doc_ids.getD j 0 < k) ∧
        (c1.curr_block_docIDs = c.curr_block_docIDs ∨
          ∃ i, i < c.block_count ∧ c1.curr_block_docIDs = c.blockDocs i)) ∨
      (∃ c1, skipGo k fuel c = (c1, false) ∧ c.StaticEq c1 ∧
        ((c.block_count ≤ c.curr_block_idx ∧ c1 = c) ∨
         (∃ j, c.curr_block_idx ≤ j ∧ j < c.block_count ∧
           k ≤ c.block_last_doc_ids.getD j 0 ∧
           (∀ j2, c.curr_block_idx ≤ j2 → j2 < j →
             c.block_last_doc_ids.getD j2 0 < k) ∧
           c1.curr_block_idx = j ∧
           ((j = c.curr_block_idx ∧ c1 = c) ∨
            (c.curr_block_idx < j ∧
              c1.curr_block_docIDs = c.blockDocs j ∧
              c1.curr_block_freqs = c.blockFreqs j ∧
              c1.curr_idx = 0 ∧
              c1.doc_id = (c.blockDocs j).headD INF_DOCID))))) := by
  intro fuel
  induction fuel with
  | zero =>
      intro c hfuel
      right
      exact ⟨c, rfl, InvertedList.StaticEq.refl c, Or.inl ⟨by omega, rfl⟩⟩
  | succ fuel ih =>
      intro c hfuel
      by_cases hcond : c.curr_block_idx < c.block_count ∧
          c.block_last_doc_ids.getD c.curr_block_idx 0 < k
      · by_cases hend : c.block_count ≤ c.curr_block_idx + 1
        · rw [skipGo_guard_exit fuel hcond hend]
          left
          have hbc : c.block_count = c.blockData.length := rfl
          refine ⟨_, rfl, ⟨rfl, rfl, rfl, rfl, rfl, rfl, rfl, rfl, rfl, rfl⟩,
            ?_, rfl, ?_, Or.inl rfl⟩
          · dsimp only [InvertedList.block_count]
            omega
          · intro j hj1 hj2
            have : j = c.curr_block_idx := by omega
            rw [this]
            exact hcond.2
        · push_neg at hend
          rw [skipGo_guard_step2 fuel hcond (by omega)]
          set c2 : InvertedList α :=
            { c with
              curr_block_docIDs := c.blockDocs (c.curr_block_idx + 1)
              curr_block_freqs := c.blockFreqs (c.curr_block_idx + 1)
              curr_block_idx := c.curr_block_idx + 1
              curr_idx := 0
              doc_id := (c.blockDocs (c.curr_block_idx + 1)).headD
                INF_DOCID } with hc2
          have hstat2 : c.StaticEq c2 :=
            ⟨rfl, rfl, rfl, rfl, rfl, rfl, rfl, rfl, rfl, rfl⟩
          have hc2idx : c2.curr_block_idx = c.curr_block_idx + 1 := rfl
          have hc2count : c2.block_count = c.block_count := rfl
          have hc2docs : ∀ j, c2.blockDocs j = c.blockDocs j := fun _ => rfl
          have hc2freqs : ∀ j, c2.blockFreqs j = c.blockFreqs j := fun _ => rfl
          have hc2last : c2.block_last_doc_ids = c.block_last_doc_ids := rfl
          have hfuel2 : c2.block_count ≤ c2.curr_block_idx + fuel := by
            rw [hc2count, hc2idx]; omega
          rcases ih c2 hfuel2 with
            ⟨c1, heq, hstat, hidx, hdoc, hall, hprov⟩ |
            ⟨c1, heq, hstat, hcase⟩
          · left
            refine ⟨c1, heq, hstat2.trans hstat, hidx, hdoc, ?_, ?_⟩
            · intro j hj1 hj2
              by_cases hj : j = c.curr_block_idx
              · rw [hj]; exact hcond.2
              · have := hall j (by rw [hc2idx]; omega)
                  (by rw [hc2count]; exact hj2)
                rw [hc2last] at this
                exact this
            · rcases hprov with hprov | ⟨i, hi1, hi2⟩
              · right
                exact ⟨c.curr_block_idx + 1, by omega, by rw [hprov]⟩
              · right
                exact ⟨i, by rw [hc2count] at hi1; exact hi1,
                  by rw [hi2]; exact hc2docs i⟩
          · right
            refine ⟨c1, heq, hstat2.trans hstat, ?_⟩
            rcases hcase with ⟨hge, _⟩ | ⟨j, hj1, hj2, hj3, hj4, hj5, hj6⟩
            · rw [hc2count, hc2idx] at hge
              omega
            · right
              refine ⟨j, by rw [hc2idx] at hj1; omega,
                by rw [hc2count] at hj2; exact hj2,
                by rw [hc2last] at hj3; exact hj3, ?_, hj5, ?_⟩
              · intro j2 hj2a hj2b
                by_cases hj2c : j2 = c.curr_block_idx
                · rw [hj2c]; exact hcond.2
                · have := hj4 j2 (by rw [hc2idx]; omega) hj2b
                  rw [hc2last] at this
                  exact this
              · rcases hj6 with ⟨hjeq, hc1eq⟩ | ⟨hjlt, ha, hb, hc, hd⟩
                · right
                  rw [hc2idx] at hjeq
                  subst hjeq
                  subst hc1eq
                  exact ⟨by omega, rfl, rfl, rfl, rfl⟩
                · right
                  refine ⟨by rw [hc2idx] at hjlt; omega,
                    by rw [ha]; exact hc2docs j,
                    by rw [hb]; exact hc2freqs j, hc, ?_⟩
                  exact hd.trans (by rw [hc2docs j])
      · rw [skipGo_guard_false fuel hcond]
        right
        refine ⟨c, rfl, InvertedList.StaticEq.refl c, ?_⟩
        push_neg at hcond
        by_cases hin : c.curr_block_idx < c.block_count
        · right
          exact ⟨c.curr_block_idx, le_refl _, hin, hcond hin, by omega,
            rfl, Or.inl ⟨rfl, rfl⟩⟩
        · left
          exact ⟨by omega, rfl⟩

set_option linter.unusedSectionVars false

/-! ### Cursor well-formedness -/

/-- Static well-formedness of a cursor over a real on-disk posting list:
blocks are non-empty with matching docID/frequency lengths, the docIDs
are globally strictly increasing and below the `INF_DOCID` sentinel, and
the `last_doc_id` metadata matches the final docID of each block. -/
def InvertedList.WF (c : InvertedList α) : Prop :=
  (∀ bl ∈ c.blockData, bl.1 ≠ [] ∧ bl.1.length = bl.2.length) ∧
  c.flatDocs.Pairwise (· < ·) ∧
  (∀ d ∈ c.flatDocs, d < INF_DOCID) ∧
  c.block_last_doc_ids.length = c.blockData.length ∧
  (∀ i, i < c.blockData.length →
    c.block_last_doc_ids.getD i 0 = (c.blockDocs i).getLastD 0)

/-- The cursor is positioned on a valid posting of the loaded block. -/
def InvertedList.Positioned (c : InvertedList α) : Prop :=
  c.curr_block_idx < c.block_count ∧
  c.curr_block_docIDs = c.blockDocs c.curr_block_idx ∧
  c.curr_block_freqs = c.blockFreqs c.curr_block_idx ∧
  c.curr_idx < c.curr_block_docIDs.length ∧
  c.doc_id = c.curr_block_docIDs.getD c.curr_idx 0

/-- The cursor ran off the end of the block list; the in-memory block is
stale (the last loaded block, or empty). -/
def InvertedList.Exhausted (c : InvertedList α) : Prop :=
  c.block_count ≤ c.curr_block_idx ∧
  c.doc_id = INF_DOCID ∧
  (c.curr_block_docIDs = [] ∨
    ∃ i, i < c.block_count ∧ c.curr_block_docIDs = c.blockDocs i)

/-- Invariant of every cursor state reachable by `nextGEQ` from a freshly
opened cursor. -/
def InvertedList.Inv (c : InvertedList α) : Prop :=
  c.WF ∧ (c.Positioned ∨ c.Exhausted)

/-- flat docID lists of the blocks before index `i`. -/
def InvertedList.flatBefore (c : InvertedList α) (i : ℕ) : List ℕ :=
  ((c.blockData.take i).map Prod.fst).flatten

/-- flat docID lists of the blocks from index `i` on. -/
def InvertedList.flatFrom (c : InvertedList α) (i : ℕ) : List ℕ :=
  ((c.blockData.drop i).map Prod.fst).flatten

theorem InvertedList.flat_decomp (c : InvertedList α) (i : ℕ) :
    c.flatDocs = c.flatBefore i ++ c.flatFrom i := by
  rw [InvertedList.flatDocs, InvertedList.flatBefore, InvertedList.flatFrom]
  rw [← List.flatten_append, ← List.map_append, List.take_append_drop]

theorem InvertedList.flatFrom_succ (c : InvertedList α) {i : ℕ}
    (h : i < c.blockData.length) :
    c.flatFrom i = c.blockDocs i ++ c.flatFrom (i + 1) := by
  rw [InvertedList.flatFrom, InvertedList.flatFrom,
    List.drop_eq_getElem_cons h, List.map_cons, List.flatten_cons]
  rw [InvertedList.blockDocs]
  congr 1
  rw [List.getD_eq_getElem?_getD, List.getElem?_eq_getElem h]
  rfl

theorem InvertedList.flatFrom_ge (c : InvertedList α) {i : ℕ}
    (h : c.blockData.length ≤ i) : c.flatFrom i = [] := by
  rw [InvertedList.flatFrom, List.drop_eq_nil_of_le h]
  rfl

/-- Membership in `flatFrom`: some block at or after `i` contains `d`. -/
theorem InvertedList.mem_flatFrom (c : InvertedList α) (i : ℕ) (d : ℕ) :
    d ∈ c.flatFrom i ↔ ∃ j, i ≤ j ∧ j < c.blockData.length ∧
      d ∈ c.blockDocs j := by
  have H : ∀ n i, c.blockData.length - i ≤ n →
      (d ∈ c.flatFrom i ↔ ∃ j, i ≤ j ∧ j < c.blockData.length ∧
        d ∈ c.blockDocs j) := by
    intro n
    induction n with
    | zero =>
        intro i hi
        rw [c.flatFrom_ge (by omega)]
        simp only [List.not_mem_nil, false_iff]
        rintro ⟨j, h1, h2, _⟩
        omega
    | succ n ih =>
        intro i hi
        by_cases hlen : i < c.blockData.length
        · rw [c.flatFrom_succ hlen, List.mem_append, ih (i + 1) (by omega)]
          constructor
          · rintro (hd | ⟨j, h1, h2, h3⟩)
            · exact ⟨i, le_refl i, hlen, hd⟩
            · exact ⟨j, by omega, h2, h3⟩
          · rintro ⟨j, h1, h2, h3⟩
            by_cases hji : j = i
            · left; rw [← hji]; exact h3
            · right; exact ⟨j, by omega, h2, h3⟩
        · rw [c.flatFrom_ge (by omega)]
          simp only [List.not_mem_nil, false_iff]
          rintro ⟨j, h1, h2, _⟩
          omega
  exact H c.blockData.length i (by omega)

theorem InvertedList.flatBefore_zero (c : InvertedList α) :
    c.flatBefore 0 = [] := rfl

theorem InvertedList.flatBefore_succ (c : InvertedList α) {i : ℕ}
    (h : i < c.blockData.length) :
    c.flatBefore (i + 1) = c.flatBefore i ++ c.blockDocs i := by
  rw [InvertedList.flatBefore, InvertedList.flatBefore, List.take_succ]
  rw [List.getElem?_eq_getElem h]
  simp only [Option.toList_some, List.map_append, List.flatten_append,
    List.map_cons, List.map_nil, List.flatten_cons, List.flatten_nil,
    List.append_nil]
  rw [InvertedList.blockDocs, List.getD_eq_getElem?_getD,
    List.getElem?_eq_getElem h]
  rfl

theorem InvertedList.mem_flatBefore (c : InvertedList α) (i : ℕ) (d : ℕ) :
    d ∈ c.flatBefore i ↔ ∃ j, j < i ∧ j < c.blockData.length ∧
      d ∈ c.blockDocs j := by
  induction i with
  | zero =>
      rw [c.flatBefore_zero]
      simp only [List.not_mem_nil, false_iff]
      rintro ⟨j, h1, _, _⟩
      omega
  | succ i ih =>
      by_cases hlen : i < c.blockData.length
      · rw [c.flatBefore_succ hlen, List.mem_append, ih]
        constructor
        · rintro (⟨j, h1, h2, h3⟩ | hd)
          · exact ⟨j, by omega, h2, h3⟩
          · exact ⟨i, by omega, hlen, hd⟩
        · rintro ⟨j, h1, h2, h3⟩
          by_cases hji : j = i
          · right; rw [← hji]; exact h3
          · left; exact ⟨j, by omega, h2, h3⟩
      · have : c.flatBefore (i + 1) = c.flatBefore i := by
          rw [InvertedList.flatBefore, InvertedList.flatBefore,
            List.take_of_length_le (by omega), List.take_of_length_le (by omega)]
        rw [this, ih]
        constructor
        · rintro ⟨j, h1, h2, h3⟩
          exact ⟨j, by omega, h2, h3⟩
        · rintro ⟨j, h1, h2, h3⟩
          exact ⟨j, by omega, h2, h3⟩

theorem getD_mem {l : List ℕ} {i : ℕ} (h : i < l.length) :
    l.getD i 0 ∈ l := by
  rw [List.getD_eq_getElem?_getD, List.getElem?_eq_getElem h]
  exact List.getElem_mem h

theorem getLastD_mem {l : List ℕ} (h : l ≠ []) : l.getLastD 0 ∈ l := by
  have := getD_mem (show l.length - 1 < l.length
    by have := List.length_pos.mpr h; omega)
  rw [← getLastD_eq_getD] at this
  exact this

theorem pairwise_getD_lt {l : List ℕ} (hp : l.Pairwise (· < ·))
    {i j : ℕ} (hij : i < j) (hj : j < l.length) :
    l.getD i 0 < l.getD j 0 := by
  have hi : i < l.length := by omega
  rw [List.getD_eq_getElem?_getD, List.getElem?_eq_getElem hi,
    List.getD_eq_getElem?_getD, List.getElem?_eq_getElem hj]
  exact List.pairwise_iff_getElem.mp hp i j hi hj hij

theorem getLastD_default_irrel {l : List ℕ} (h : l ≠ []) (d : ℕ) :
    l.getLastD d = l.getLastD 0 := by
  rw [List.getLastD_eq_getLast?, List.getLastD_eq_getLast?]
  cases h3 : l.getLast? with
  | none => rw [List.getLast?_eq_none_iff] at h3; exact absurd h3 h
  | some x => rfl

theorem le_getLastD_of_mem {l : List ℕ} (hp : l.Pairwise (· ≤ ·))
    {d : ℕ} (hd : d ∈ l) : d ≤ l.getLastD 0 := by
  induction l with
  | nil => simp at hd
  | cons a as ih =>
      rcases List.pairwise_cons.mp hp with ⟨ha, has⟩
      cases hnil : as with
      | nil =>
          subst hnil
          rcases List.mem_cons.mp hd with hd | hd
          · subst hd; simp
          · simp at hd
      | cons b bs =>
          have hne : as ≠ [] := by rw [hnil]; simp
          rw [← hnil, List.getLastD_cons, getLastD_default_irrel hne]
          rcases List.mem_cons.mp hd with hd | hd
          · subst hd
            exact ha _ (getLastD_mem hne)
          · exact ih has hd

theorem InvertedList.flatFrom_zero (c : InvertedList α) :
    c.flatFrom 0 = c.flatDocs := rfl

theorem InvertedList.mem_flat_of_mem_block {c : InvertedList α} {i d : ℕ}
    (hi : i < c.blockData.length) (hd : d ∈ c.blockDocs i) :
    d ∈ c.flatDocs := by
  rw [← c.flatFrom_zero, c.mem_flatFrom]
  exact ⟨i, by omega, hi, hd⟩

theorem InvertedList.pairwise_block {c : InvertedList α}
    (hp : c.flatDocs.Pairwise (· < ·)) {i : ℕ} (hi : i < c.blockData.length) :
    (c.blockDocs i).Pairwise (· < ·) := by
  have hd := c.flat_decomp i
  rw [c.flatFrom_succ hi] at hd
  rw [hd] at hp
  exact (List.pairwise_append.mp
    (List.pairwise_append.mp hp).2.1).1

theorem InvertedList.cross_block_lt {c : InvertedList α}
    (hp : c.flatDocs.Pairwise (· < ·)) {i j a b : ℕ}
    (hij : i < j) (hj : j < c.blockData.length)
    (ha : a ∈ c.blockDocs i) (hb : b ∈ c.blockDocs j) : a < b := by
  have hd := c.flat_decomp i
  rw [c.flatFrom_succ (by omega)] at hd
  rw [hd] at hp
  have h2 := (List.pairwise_append.mp
    (List.pairwise_append.mp hp).2.1).2.2
  apply h2 a ha
  rw [c.mem_flatFrom]
  exact ⟨j, by omega, hj, hb⟩

theorem InvertedList.before_block_lt {c : InvertedList α}
    (hp : c.flatDocs.Pairwise (· < ·)) {i a b : ℕ}
    (hi : i < c.blockData.length)
    (ha : a ∈ c.flatBefore i) (hb : b ∈ c.blockDocs i) : a < b := by
  have hd := c.flat_decomp i
  rw [hd] at hp
  apply (List.pairwise_append.mp hp).2.2 a ha
  rw [c.mem_flatFrom]
  exact ⟨i, le_refl i, hi, hb⟩

/-- `nextGEQ` equation: the skip loop already returned `INF_DOCID`. -/
theorem nextGEQ_skip_true {c c1 : InvertedList α} {k : ℕ}
    (heq : skipGo k (c.block_count + 1) c = (c1, true)) :
    c.nextGEQ k = c1 := by
  rw [InvertedList.nextGEQ, nextGEQGo, heq]
  exact if_pos rfl

/-- `nextGEQ` equation: skip finished and the loaded block contains an
entry `≥ k`, so the galloping search positions the cursor. -/
theorem nextGEQ_skip_false_hit {c c1 : InvertedList α} {k : ℕ}
    (heq : skipGo k (c.block_count + 1) c = (c1, false))
    (hcond : c1.curr_block_docIDs ≠ [] ∧
      k ≤ c1.curr_block_docIDs.getLastD 0) :
    c.nextGEQ k =
      { c1 with
        curr_idx := galloping_search c1.curr_block_docIDs k c1.curr_idx
        doc_id := c1.curr_block_docIDs.getD
          (galloping_search c1.curr_block_docIDs k c1.curr_idx) 0 } := by
  rw [InvertedList.nextGEQ, nextGEQGo, heq]
  dsimp only
  rw [if_neg (show ¬(false = true) by simp), if_pos hcond]

/-- `nextGEQ` equation: skip finished, the loaded block has no entry
`≥ k`, and there is no further block. -/
theorem nextGEQ_skip_false_miss {c c1 : InvertedList α} {k : ℕ}
    (heq : skipGo k (c.block_count + 1) c = (c1, false))
    (hcond : ¬(c1.curr_block_docIDs ≠ [] ∧
      k ≤ c1.curr_block_docIDs.getLastD 0))
    (hend : c1.block_count ≤ c1.curr_block_idx + 1) :
    c.nextGEQ k =
      { c1 with curr_block_idx := c1.curr_block_idx + 1,
                doc_id := INF_DOCID } := by
  rw [InvertedList.nextGEQ, nextGEQGo, heq]
  dsimp only
  rw [if_neg (show ¬(false = true) by simp), if_neg hcond]
  dsimp only [InvertedList.block_count]
  rw [if_pos (show c1.blockData.length ≤ c1.curr_block_idx + 1 from hend)]

theorem blockData_getD_mem {c : InvertedList α} {i : ℕ}
    (h : i < c.blockData.length) :
    c.blockData.getD i ([], []) ∈ c.blockData := by
  rw [List.getD_eq_getElem?_getD, List.getElem?_eq_getElem h]
  exact List.getElem_mem h

theorem InvertedList.blockDocs_ne_nil {c : InvertedList α}
    (hblocks : ∀ bl ∈ c.blockData, bl.1 ≠ [] ∧ bl.1.length = bl.2.length)
    {i : ℕ} (h : i < c.blockData.length) : c.blockDocs i ≠ [] :=
  (hblocks _ (blockData_getD_mem h)).1

theorem InvertedList.WF.of_static {c c2 : InvertedList α}
    (h : c.StaticEq c2) (hwf : c.WF) : c2.WF := by
  rw [InvertedList.WF] at hwf ⊢
  rw [h.1, h.2.1, h.flatDocs_eq]
  simp only [h.blockDocs_eq]
  exact hwf

/-- Master specification of `nextGEQ` for calls with `k` at or above the
cursor's current `doc_id` (every call the query engines make): the cursor
moves to the smallest posting `≥ k` of the whole list (equivalently, of
the postings at or after its prior position), `INF_DOCID` if none exists,
the reachability invariant is preserved, and `doc_id` never decreases. -/
theorem nextGEQ_spec {c : InvertedList α} {k : ℕ}
    (hinv : c.Inv) (hk : c.doc_id ≤ k) :
    c.StaticEq (c.nextGEQ k) ∧
    (c.nextGEQ k).Inv ∧
    (c.nextGEQ k).doc_id = leastGEQ c.flatDocs k ∧
    c.doc_id ≤ (c.nextGEQ k).doc_id := by
  obtain ⟨hwf, hpos⟩ := hinv
  obtain ⟨hblocks, hflat, hbound, hlastlen, hlastmeta⟩ := hwf
  have hwf2 : c.WF := ⟨hblocks, hflat, hbound, hlastlen, hlastmeta⟩
  have hflatle : c.flatDocs.Pairwise (· ≤ ·) :=
    hflat.imp (fun h => le_of_lt h)
  rcases skipGo_spec k (c.block_count + 1) c (by omega) with
    ⟨c1, heq, hstat, hidx, hdocid, hall, hprov⟩ |
    ⟨c1, heq, hstat, hcase⟩
  · -- Case: the skip loop exhausted the cursor.
    rw [nextGEQ_skip_true heq]
    have hposc : c.Positioned := by
      rcases hpos with hp | hp
      · exact hp
      · exfalso
        have hg : ¬(c.curr_block_idx < c.block_count ∧
            c.block_last_doc_ids.getD c.curr_block_idx 0 < k) := by
          rintro ⟨h1, _⟩
          have h2 := hp.1
          omega
        have hfs := skipGo_guard_false c.block_count hg
        rw [heq] at hfs
        exact Bool.noConfusion (congrArg Prod.snd hfs)
    obtain ⟨hidx0, hdocs0, hfreqs0, hcurr, hdocid0⟩ := hposc
    have hdlen : c.curr_idx < (c.blockDocs c.curr_block_idx).length := by
      rw [← hdocs0]; exact hcurr
    have hdocmem : c.doc_id ∈ c.blockDocs c.curr_block_idx := by
      rw [hdocid0, hdocs0]; exact getD_mem hdlen
    have hflatmem : c.doc_id ∈ c.flatDocs :=
      c.mem_flat_of_mem_block hidx0 hdocmem
    have hall_lt : ∀ d ∈ c.flatDocs, d < k := by
      intro d hd
      rw [c.flat_decomp c.curr_block_idx, List.mem_append] at hd
      rcases hd with hd | hd
      · have := c.before_block_lt hflat hidx0 hd hdocmem
        omega
      · rw [c.mem_flatFrom] at hd
        obtain ⟨j, hj1, hj2, hj3⟩ := hd
        have h1 : d ≤ (c.blockDocs j).getLastD 0 :=
          le_getLastD_of_mem
            ((c.pairwise_block hflat hj2).imp (fun h => le_of_lt h)) hj3
        have h2 := hlastmeta j hj2
        have h3 := hall j hj1 hj2
        omega
    refine ⟨hstat, ⟨InvertedList.WF.of_static hstat hwf2,
      Or.inr ⟨hidx, hdocid, ?_⟩⟩, ?_, ?_⟩
    · rcases hprov with hp | ⟨i, hi1, hi2⟩
      · right
        refine ⟨c.curr_block_idx, ?_, ?_⟩
        · rw [hstat.block_count_eq]; exact hidx0
        · rw [hp, hdocs0, hstat.blockDocs_eq]
      · right
        refine ⟨i, ?_, ?_⟩
        · rw [hstat.block_count_eq]; exact hi1
        · rw [hi2, hstat.blockDocs_eq]
    · rw [hdocid, leastGEQ_all_lt hall_lt]
    · rw [hdocid]
      exact le_of_lt (hbound _ hflatmem)
  · rcases hcase with ⟨hge, hc1c⟩ | ⟨j, hj1, hj2, hj3, hj4, hj5, hj6⟩
    · -- Case: the cursor was already exhausted before the call.
      subst c1
      have hexh : c.Exhausted := by
        rcases hpos with hp | hp
        · exfalso
          have := hp.1
          omega
        · exact hp
      obtain ⟨hgec, hdocINF, hprovC⟩ := hexh
      have hkINF : INF_DOCID ≤ k := by rw [← hdocINF]; exact hk
      have hcond : ¬(c.curr_block_docIDs ≠ [] ∧
          k ≤ c.curr_block_docIDs.getLastD 0) := by
        rintro ⟨h1, h2⟩
        rcases hprovC with hp | ⟨i, hi1, hi2⟩
        · exact h1 hp
        · rw [hi2] at h2
          have hmem := getLastD_mem (c.blockDocs_ne_nil hblocks hi1)
          have := hbound _ (c.mem_flat_of_mem_block hi1 hmem)
          omega
      rw [nextGEQ_skip_false_miss heq hcond (by omega)]
      have hallt : ∀ d ∈ c.flatDocs, d < k := fun d hd =>
        lt_of_lt_of_le (hbound d hd) hkINF
      refine ⟨⟨rfl, rfl, rfl, rfl, rfl, rfl, rfl, rfl, rfl, rfl⟩,
        ⟨⟨hblocks, hflat, hbound, hlastlen, hlastmeta⟩,
          Or.inr ⟨?_, rfl, ?_⟩⟩, ?_, ?_⟩
      · show c.blockData.length ≤ c.curr_block_idx + 1
        have hbc : c.block_count = c.blockData.length := rfl
        omega
      · rcases hprovC with hp | ⟨i, hi1, hi2⟩
        · left; exact hp
        · right; exact ⟨i, hi1, hi2⟩
      · show INF_DOCID = leastGEQ c.flatDocs k
        rw [leastGEQ_all_lt hallt]
      · show c.doc_id ≤ INF_DOCID
        rw [hdocINF]
    · -- Case: the skip loop stopped at block j with last docID ≥ k.
      have hposc : c.Positioned := by
        rcases hpos with hp | hp
        · exact hp
        · exfalso
          have := hp.1
          omega
      obtain ⟨hidx0, hdocs0, hfreqs0, hcurr, hdocid0⟩ := hposc
      have hdlen : c.curr_idx < (c.blockDocs c.curr_block_idx).length := by
        rw [← hdocs0]; exact hcurr
      have hdocmem : c.doc_id ∈ c.blockDocs c.curr_block_idx := by
        rw [hdocid0, hdocs0]; exact getD_mem hdlen
      have hj2x : j < c.blockData.length := hj2
      have harr_ne : c.blockDocs j ≠ [] := c.blockDocs_ne_nil hblocks hj2x
      have harr_pw : (c.blockDocs j).Pairwise (· < ·) :=
        c.pairwise_block hflat hj2x
      have harr_pwle : (c.blockDocs j).Pairwise (· ≤ ·) :=
        harr_pw.imp (fun h => le_of_lt h)
      have harr_last : k ≤ (c.blockDocs j).getLastD 0 := by
        rw [← hlastmeta j hj2x]; exact hj3
      have hlastmem : (c.blockDocs j).getLastD 0 ∈ c.blockDocs j :=
        getLastD_mem harr_ne
      have hbefore_lt : ∀ d ∈ c.flatBefore j, d < k := by
        intro d hd
        rw [c.mem_flatBefore] at hd
        obtain ⟨j2, hj2a, hj2b, hj2c⟩ := hd
        by_cases hcase2 : c.curr_block_idx ≤ j2
        · have h1 : d ≤ (c.blockDocs j2).getLastD 0 :=
            le_getLastD_of_mem
              ((c.pairwise_block hflat hj2b).imp (fun h => le_of_lt h)) hj2c
          have h2 := hlastmeta j2 hj2b
          have h3 := hj4 j2 hcase2 hj2a
          omega
        · push_neg at hcase2
          have h1 : d < c.doc_id :=
            c.cross_block_lt hflat hcase2 hidx0 hj2c hdocmem
          omega
      have hleast : leastGEQ c.flatDocs k = leastGEQ (c.blockDocs j) k := by
        rw [c.flat_decomp j, leastGEQ_append_left hbefore_lt,
          c.flatFrom_succ hj2x,
          leastGEQ_append_right ⟨_, hlastmem, harr_last⟩]
      rcases hj6 with ⟨hjeq, hc1c⟩ | ⟨hjlt, ha, hb, hcc, hd⟩
      · -- The current block already contains an entry ≥ k.
        subst c1
        subst j
        have hcond : c.curr_block_docIDs ≠ [] ∧
            k ≤ c.curr_block_docIDs.getLastD 0 := by
          rw [hdocs0]; exact ⟨harr_ne, harr_last⟩
        have hdocid0x : c.doc_id =
            (c.blockDocs c.curr_block_idx).getD c.curr_idx 0 := by
          rw [hdocid0, hdocs0]
        have hstart : ∀ j2, j2 < c.curr_idx →
            c.curr_block_docIDs.getD j2 0 < k := by
          intro j2 hj2y
          rw [hdocs0]
          have h1 := pairwise_getD_lt harr_pw hj2y hdlen
          omega
        have hgal := galloping_search_spec c.curr_block_docIDs k c.curr_idx
          (by rw [hdocs0]; exact harr_pwle)
          (by rw [hdocs0]; exact harr_ne)
          (by rw [hdocs0]; exact harr_last) hstart
        rw [nextGEQ_skip_false_hit heq hcond]
        have hgd := leastGEQ_eq_getD k c.curr_block_docIDs
          (by rw [hdocs0]; exact harr_pwle) hgal.2
        refine ⟨⟨rfl, rfl, rfl, rfl, rfl, rfl, rfl, rfl, rfl, rfl⟩,
          ⟨⟨hblocks, hflat, hbound, hlastlen, hlastmeta⟩,
            Or.inl ⟨hidx0, hdocs0, hfreqs0, ?_, rfl⟩⟩, ?_, ?_⟩
        · show galloping_search c.curr_block_docIDs k c.curr_idx <
            c.curr_block_docIDs.length
          rw [hgal.1]
          exact hgal.2
        · show c.curr_block_docIDs.getD
            (galloping_search c.curr_block_docIDs k c.curr_idx) 0 =
            leastGEQ c.flatDocs k
          rw [hgal.1, hleast, ← hdocs0]
          exact hgd.1.symm
        · show c.doc_id ≤ c.curr_block_docIDs.getD
            (galloping_search c.curr_block_docIDs k c.curr_idx) 0
          rw [hgal.1]
          have h2 := hgd.2
          rw [hgd.1] at h2
          omega
      · -- A later block was loaded; the search starts at index 0.
        have hcond : c1.curr_block_docIDs ≠ [] ∧
            k ≤ c1.curr_block_docIDs.getLastD 0 := by
          rw [ha]; exact ⟨harr_ne, harr_last⟩
        have hstart : ∀ j2, j2 < c1.curr_idx →
            c1.curr_block_docIDs.getD j2 0 < k := by
          intro j2 hj2y
          rw [hcc] at hj2y
          omega
        have hgal := galloping_search_spec c1.curr_block_docIDs k c1.curr_idx
          (by rw [ha]; exact harr_pwle)
          (by rw [ha]; exact harr_ne)
          (by rw [ha]; exact harr_last) hstart
        rw [nextGEQ_skip_false_hit heq hcond]
        have hgd := leastGEQ_eq_getD k c1.curr_block_docIDs
          (by rw [ha]; exact harr_pwle) hgal.2
        have hstat2 : c.StaticEq
            ({ c1 with
              curr_idx := galloping_search c1.curr_block_docIDs k c1.curr_idx
              doc_id := c1.curr_block_docIDs.getD
                (galloping_search c1.curr_block_docIDs k c1.curr_idx) 0 } :
              InvertedList α) :=
          hstat.trans ⟨rfl, rfl, rfl, rfl, rfl, rfl, rfl, rfl, rfl, rfl⟩
        refine ⟨hstat2, ⟨InvertedList.WF.of_static hstat2 hwf2,
          Or.inl ⟨?_, ?_, ?_, ?_, rfl⟩⟩, ?_, ?_⟩
        · show c1.curr_block_idx <
            ({ c1 with
              curr_idx := galloping_search c1.curr_block_docIDs k c1.curr_idx
              doc_id := c1.curr_block_docIDs.getD
                (galloping_search c1.curr_block_docIDs k c1.curr_idx) 0 } :
              InvertedList α).block_count
          rw [hstat2.block_count_eq, hj5]
          exact hj2
        · show c1.curr_block_docIDs =
            ({ c1 with
              curr_idx := galloping_search c1.curr_block_docIDs k c1.curr_idx
              doc_id := c1.curr_block_docIDs.getD
                (galloping_search c1.curr_block_docIDs k c1.curr_idx) 0 } :
              InvertedList α).blockDocs c1.curr_block_idx
          rw [hstat2.blockDocs_eq, hj5, ha]
        · show c1.curr_block_freqs =
            ({ c1 with
              curr_idx := galloping_search c1.curr_block_docIDs k c1.curr_idx
              doc_id := c1.curr_block_docIDs.getD
                (galloping_search c1.curr_block_docIDs k c1.curr_idx) 0 } :
              InvertedList α).blockFreqs c1.curr_block_idx
          rw [hstat2.blockFreqs_eq, hj5, hb]
        · show galloping_search c1.curr_block_docIDs k c1.curr_idx <
            c1.curr_block_docIDs.length
          rw [hgal.1]
          exact hgal.2
        · show c1.curr_block_docIDs.getD
            (galloping_search c1.curr_block_docIDs k c1.curr_idx) 0 =
            leastGEQ c.flatDocs k
          rw [hgal.1, hleast, ← ha]
          exact hgd.1.symm
        · show c.doc_id ≤ c1.curr_block_docIDs.getD
            (galloping_search c1.curr_block_docIDs k c1.curr_idx) 0
          rw [hgal.1]
          have h2 := hgd.2
          rw [hgd.1] at h2
          omega

/-- Restricting to the postings at or after the current position does not
change the least entry `≥ k` when `k` is at least the current `doc_id`. -/
theorem leastGEQ_filter_eq {l : List ℕ} {d k : ℕ} (h : d ≤ k) :
    leastGEQ (l.filter (fun x => d ≤ x)) k = leastGEQ l k := by
  rw [leastGEQ, leastGEQ, List.filter_filter]
  congr 1
  apply List.filter_congr
  intro x _
  by_cases hx : k ≤ x
  · simp [hx, le_trans h hx]
  · simp [hx]

/-- C1 (amended): for every open, well-formed cursor in a `nextGEQ`-
reachable state and every `k` at or above the current `doc_id` (as in
every call site of the engines), `nextGEQ(k)` sets and returns `doc_id`
equal to the smallest docID `≥ k` among the postings at or after the
cursor's prior position (`INF_DOCID` if none), preserves the reachability
invariant, and never decreases `doc_id`. -/
theorem nextGEQ_correct (c : InvertedList α) (k : ℕ)
    (hinv : c.Inv) (hk : c.doc_id ≤ k) :
    (c.nextGEQ k).doc_id =
      leastGEQ (c.flatDocs.filter (fun d => c.doc_id ≤ d)) k ∧
    (c.nextGEQ k).Inv ∧
    c.StaticEq (c.nextGEQ k) ∧
    c.doc_id ≤ (c.nextGEQ k).doc_id := by
  obtain ⟨h1, h2, h3, h4⟩ := nextGEQ_spec hinv hk
  exact ⟨by rw [leastGEQ_filter_eq hk]; exact h3, h2, h1, h4⟩

/-- A tiny concrete cursor over the posting list `[(5,1),(10,1)]` in one
block, freshly opened (as `__init__` leaves it). -/
def exCursor : InvertedList ℚ :=
  { blockData := [([5, 10], [1, 1])]
    block_last_doc_ids := [10]
    block_max_scores := [0]
    max_score := 0
    idf := 0
    avg_len := 1
    k1 := 1
    b := 0
    page_table := []
    df := 2
    curr_block_idx := 0
    curr_idx := 0
    curr_block_docIDs := [5, 10]
    curr_block_freqs := [1, 1]
    doc_id := 5 }

/-- C1 (counterexample): on the cursor above, `nextGEQ 6` moves to docID
10, but a following `nextGEQ 3` — a call with `k` below the current
`doc_id`, allowed by the claim's "every integer k" — moves the cursor
BACK to docID 5: `doc_id` decreases across a `nextGEQ` sequence without
`reset()`, and the result is not the smallest docID `≥ 3` at or after the
prior position (which would be 10). -/
theorem nextGEQ_not_monotonic :
    (exCursor.nextGEQ 6).doc_id = 10 ∧
    ((exCursor.nextGEQ 6).nextGEQ 3).doc_id = 5 ∧
    ((exCursor.nextGEQ 6).nextGEQ 3).doc_id < (exCursor.nextGEQ 6).doc_id ∧
    ((exCursor.nextGEQ 6).nextGEQ 3).doc_id ≠
      leastGEQ ((exCursor.nextGEQ 6).flatDocs.filter
        (fun d => (exCursor.nextGEQ 6).doc_id ≤ d)) 3 := by
  refine ⟨rfl, rfl, by decide, ?_⟩
  intro h
  simp only [show ((exCursor.nextGEQ 6).nextGEQ 3).doc_id = 5 from rfl] at h
  rw [show (exCursor.nextGEQ 6).flatDocs.filter
      (fun d => (exCursor.nextGEQ 6).doc_id ≤ d) = [10] from rfl] at h
  rw [show leastGEQ [10] 3 = 10 from rfl] at h
  exact absurd h (by norm_num)

/-- C1 (witness): the amended theorem applied to the concrete cursor with
`k = 7 ≥ doc_id = 5`: the call returns 10, the least posting `≥ 7`. -/
theorem nextGEQ_correct_witness :
    exCursor.Inv ∧ exCursor.doc_id ≤ 7 ∧
    (exCursor.nextGEQ 7).doc_id =
      leastGEQ (exCursor.flatDocs.filter
        (fun d => exCursor.doc_id ≤ d)) 7 ∧
    (exCursor.nextGEQ 7).doc_id = 10 := by
  have hinv : exCursor.Inv := by
    refine ⟨⟨?_, ?_, ?_, ?_, ?_⟩, Or.inl ⟨?_, ?_, ?_, ?_, ?_⟩⟩
    · decide
    · decide
    · decide
    · decide
    · decide
    · decide
    · decide
    · decide
    · decide
    · decide
  refine ⟨hinv, by decide, (nextGEQ_correct exCursor 7 hinv (by decide)).1, rfl⟩

/-- C6 (witness): the two-byte encoding of `[300]` truncated after its
first (continuation) byte decodes to the empty prefix. -/
theorem varbyte_decode_truncated_witness :
    [172] ++ [2] = varbyte_encode [300] ∧
    varbyte_decode [172] = [] ∧
    (∃ j, j ≤ ([300] : List ℕ).length ∧
      varbyte_decode [172] = ([300] : List ℕ).take j ∧
      (varbyte_encode (([300] : List ℕ).take j)).length ≤ ([172] : List ℕ).length ∧
      ∀ i, i ≤ ([300] : List ℕ).length →
        (varbyte_encode (([300] : List ℕ).take i)).length ≤
          ([172] : List ℕ).length → i ≤ j) :=
  ⟨by decide, by decide, varbyte_decode_truncated [300] [172] [2] (by decide)⟩

/-- C7 (witness): the round-trip theorem applied to the concrete block
`doc_ids = [1, 5, 7]`, `freqs = [2, 1, 3]`. -/
theorem decode_encode_postings_witness :
    List.Chain' (· < ·) ([1, 5, 7] : List ℕ) ∧
    ([1, 5, 7] : List ℕ).length = ([2, 1, 3] : List ℕ).length ∧
    decode_postings (encode_postings [1, 5, 7] [2, 1, 3]).1
        (encode_postings [1, 5, 7] [2, 1, 3]).2 = ([1, 5, 7], [2, 1, 3]) :=
  ⟨by norm_num [List.chain'_cons], by decide,
    (decode_encode_postings [1, 5, 7] [2, 1, 3]
      (by norm_num [List.chain'_cons]) (by decide)).1⟩

/-- C10 (witness): termination on the non-negative list `[0, 300]` and
divergence on `[-1]` for a concrete fuel. -/
theorem varbyte_encode_termination_witness :
    (∃ fuel : ℕ, varbyteEncodeIntFuel fuel [(0 : ℤ), 300] =
      some ((varbyte_encode ([(0 : ℤ), 300].map Int.toNat)).map (Nat.cast ·))) ∧
    varbyteEncodeIntFuel 5 [(-1 : ℤ)] = none :=
  ⟨varbyte_encode_termination.1 [0, 300] (by decide),
    varbyte_encode_termination.2 [-1] (-1) (by decide) (by decide) 5⟩

/-! ### LRU list cache (`src/query/inverted_list_cache.py`)

The only externally visible resource of a cached cursor is its open index
file handle (`self.file = open(index_path, "rb")` in
`InvertedList.__init__`). Handles are modelled by indices into a session
file-handle table (`true` = open); `InvertedList.closeList` sets the
entry to `false`. Cache operations thread the table explicitly so that
any closing they perform would be observable. -/

/-- The file-handle table of the session: `true` means open. -/
def closeListHandle (ft : List Bool) (h : ℕ) : List Bool :=
  ft.set h false

/-- `OrderedDict.move_to_end(term)`: remove the entry and re-append it. -/
def moveToEnd (l : List (String × ℕ)) (t : String) : List (String × ℕ) :=
  l.filter (fun e => e.1 ≠ t) ++ l.filter (fun e => e.1 = t)

/-- The LRU cache: an insertion-ordered mapping from term to the cached
cursor's file handle, plus capacity and statistics. -/
structure InvertedListCache where
  cache : List (String × ℕ)
  capacity : ℕ
  hits : ℕ
  misses : ℕ
  deriving DecidableEq

/-- `get(term)`: return the cached cursor and mark it most recently used
(hit), or `None` (miss). -/
def InvertedListCache.get (c : InvertedListCache) (term : String) :
    InvertedListCache × Option ℕ :=
  match c.cache.lookup term with
  | none => ({ c with misses := c.misses + 1 }, none)
  | some v =>
      ({ c with cache := moveToEnd c.cache term, hits := c.hits + 1 }, some v)

/-- `put(term, inverted_list)`: move an existing key to the MRU end;
otherwise evict the least recently used entry when full
(`popitem(last=False)`) and insert the new entry at the end. Note that
the eviction does not touch the file-handle table. -/
def InvertedListCache.put (c : InvertedListCache) (term : String) (lst : ℕ)
    (ft : List Bool) : InvertedListCache × List Bool :=
  if (c.cache.lookup term).isSome then
    ({ c with cache := moveToEnd c.cache term }, ft)
  else if c.capacity ≤ c.cache.length then
    ({ c with cache := c.cache.drop 1 ++ [(term, lst)] }, ft)
  else
    ({ c with cache := c.cache ++ [(term, lst)] }, ft)

/-- C8 (amended): inserting a fresh term into a full cache evicts exactly
the least-recently-used (first) entry and appends the new one, but does
NOT close the evicted cursor's index file handle: the file-handle table
is returned unchanged. -/
theorem lru_put_evicts_without_closing
    (cache : List (String × ℕ)) (cap hits misses : ℕ)
    (term : String) (lst : ℕ) (ft : List Bool)
    (hnotin : cache.lookup term = none)
    (hfull : cache.length = cap) (hpos : 0 < cap) :
    InvertedListCache.put ⟨cache, cap, hits, misses⟩ term lst ft =
      (⟨cache.drop 1 ++ [(term, lst)], cap, hits, misses⟩, ft) := by
  rw [InvertedListCache.put]
  rw [if_neg (by simp [hnotin])]
  rw [if_pos (by simp [hfull])]

/-- A full cache of capacity 10 whose ten cursors all hold open handles. -/
def fullCache : InvertedListCache :=
  ⟨[("a", 0), ("b", 1), ("c", 2), ("d", 3), ("e", 4), ("f", 5), ("g", 6),
    ("h", 7), ("i", 8), ("j", 9)], 10, 0, 0⟩

/-- C8 (counterexample): `put` of a fresh term into the full cache above
evicts the LRU entry `("a", handle 0)`, yet handle 0 is still open
afterwards — the claim says eviction closes the evicted cursor's file
handle. -/
theorem lru_put_does_not_close :
    (fullCache.put "k" 10 (List.replicate 11 true)).1.cache =
      [("b", 1), ("c", 2), ("d", 3), ("e", 4), ("f", 5), ("g", 6),
       ("h", 7), ("i", 8), ("j", 9), ("k", 10)] ∧
    ((fullCache.put "k" 10 (List.replicate 11 true)).2.getD 0 false = true) ∧
    closeListHandle (List.replicate 11 true) 0 ≠
      (fullCache.put "k" 10 (List.replicate 11 true)).2 := by
  refine ⟨by decide, by decide, by decide⟩

/-- C8 (witness): the amended theorem applied to the concrete full cache. -/
theorem lru_put_evicts_without_closing_witness :
    (([("a", 0), ("b", 1), ("c", 2), ("d", 3), ("e", 4), ("f", 5), ("g", 6),
      ("h", 7), ("i", 8), ("j", 9)] : List (String × ℕ)).lookup "k" = none) ∧
    InvertedListCache.put ⟨[("a", 0), ("b", 1), ("c", 2), ("d", 3), ("e", 4),
        ("f", 5), ("g", 6), ("h", 7), ("i", 8), ("j", 9)], 10, 0, 0⟩
        "k" 10 (List.replicate 11 true) =
      (⟨[("b", 1), ("c", 2), ("d", 3), ("e", 4), ("f", 5), ("g", 6),
        ("h", 7), ("i", 8), ("j", 9), ("k", 10)], 10, 0, 0⟩,
        List.replicate 11 true) := by
  constructor
  · decide
  · rw [lru_put_evicts_without_closing _ 10 0 0 "k" 10 _ (by decide)
      (by decide) (by decide)]
    decide


/-! ### Parser (src/search_system/parser/parser.py, src/shared/utils.py)

Text is modelled as `List Char`; a posting line `f"{term} {doc_id} {freq}"`
is modelled as the triple `(term, doc_id, freq)` (terms produced by
`tokenize` contain no spaces, so the space-joined string and the triple
determine each other).  Python compares strings by code point, modelled by
`listCharLT` on `Char.toNat`. -/

/-- A character kept by `tokenize`'s regex `[^a-z0-9]` replacement
(applied after lowercasing). -/
def charKeep (c : Char) : Bool :=
  (decide ('a' ≤ c) && decide (c ≤ 'z')) || (decide ('0' ≤ c) && decide (c ≤ '9'))

/-- `str.split()` on a string whose only whitespace is `' '`: split on runs
of spaces, dropping empty pieces.  `acc` holds the current token reversed. -/
def splitSpacesGo : List Char → List Char → List (List Char)
  | [], acc => if acc.isEmpty then [] else [acc.reverse]
  | c :: cs, acc =>
      if c = ' ' then
        if acc.isEmpty then splitSpacesGo cs []
        else acc.reverse :: splitSpacesGo cs []
      else splitSpacesGo cs (c :: acc)

/-- `tokenize` (src/shared/utils.py): lowercase, replace every character
outside `[a-z0-9]` by a space, split on whitespace.  After the replacement
the only whitespace character left is `' '`. -/
def tokenize (text : List Char) : List (List Char) :=
  splitSpacesGo ((text.map Char.toLower).map (fun c => if charKeep c then c else ' ')) []

/-- One `freqs[token] += 1` step on an insertion-ordered association list
(Python dicts iterate in insertion order). -/
def bumpFreq (l : List (List Char × ℕ)) (t : List Char) : List (List Char × ℕ) :=
  match l with
  | [] => [(t, 1)]
  | (s, n) :: rest => if s = t then (s, n + 1) :: rest else (s, n) :: bumpFreq rest t

/-- `parse_document`: term-frequency table of the tokenized text, in first
appearance order. -/
def parse_document (text : List Char) : List (List Char × ℕ) :=
  (tokenize text).foldl bumpFreq []

/-- Code-point lexicographic `<` on strings (Python string comparison). -/
def listCharLT : List Char → List Char → Bool
  | [], [] => false
  | [], _ :: _ => true
  | _ :: _, [] => false
  | a :: as, b :: bs =>
      if a.toNat < b.toNat then true
      else if b.toNat < a.toNat then false
      else listCharLT as bs

/-- The sort-key comparison of `write_chunk`:
`key=lambda x: (x.split()[0], int(x.split()[1]))`, i.e. `(term, docID)`
ascending, lexicographically. -/
def postingKeyLE (p q : List Char × ℕ × ℕ) : Bool :=
  listCharLT p.1 q.1 || (decide (p.1 = q.1) && decide (p.2.1 ≤ q.2.1))

/-- Insert a posting after all existing postings of key ≤ its key; together
with `write_chunk`'s left fold this is a stable ascending sort, matching
Python's stable `list.sort`. -/
def insertPosting (p : List Char × ℕ × ℕ) :
    List (List Char × ℕ × ℕ) → List (List Char × ℕ × ℕ)
  | [] => [p]
  | q :: qs => if postingKeyLE q p then q :: insertPosting p qs else p :: q :: qs

/-- `write_chunk`: sort the buffered postings by `(term, int(docID))`.
(The directory and chunk id arguments only name the output file.) -/
def write_chunk (postings : List (List Char × ℕ × ℕ)) :
    List (List Char × ℕ × ℕ) :=
  postings.foldl (fun acc p => insertPosting p acc) []

/-- `str.strip()`. -/
def stripChars (l : List Char) : List Char :=
  ((l.dropWhile Char.isWhitespace).reverse.dropWhile Char.isWhitespace).reverse

/-- `doc.strip().split("\t", 1)`: `none` when there is no tab (a single
part, skipped by the `len(parts) != 2` check), otherwise the two parts. -/
def splitFirstTab : List Char → Option (List Char × List Char)
  | [] => none
  | c :: cs =>
      if c = '\t' then some ([], cs)
      else (splitFirstTab cs).map (fun p => (c :: p.1, p.2))

/-- `int()` on the (decimal digit) docID strings arising here. -/
def parseNatChars (l : List Char) : ℕ :=
  l.foldl (fun acc c => acc * 10 + (c.toNat - 48)) 0

/-- Python truthiness test `max_docs and doc_count >= max_docs`. -/
def maxDocsReached (max_docs : Option ℕ) (doc_count : ℕ) : Bool :=
  match max_docs with
  | none => false
  | some m => decide (m ≠ 0) && decide (m ≤ doc_count)

/-- The main loop of `run_parser` over the lines of `collection.tsv`,
returning the written chunks in order (`chunk_id` only names the files).
The buffer is flushed once `len(postings) >= chunk_size` after appending a
whole document's postings; `break` on `max_docs` still runs the final
flush. -/
def parseLoopP (chunk_size : ℕ) (max_docs : Option ℕ) (subset_ids : List ℕ) :
    List (List Char) → List (List Char × ℕ × ℕ) → ℕ →
    List (List (List Char × ℕ × ℕ))
  | [], postings, _ =>
      if postings.isEmpty then [] else [write_chunk postings]
  | line :: rest, postings, doc_count =>
      match splitFirstTab (stripChars line) with
      | none => parseLoopP chunk_size max_docs subset_ids rest postings doc_count
      | some (doc_id_str, text) =>
          let doc_id := parseNatChars doc_id_str
          if ¬subset_ids.isEmpty ∧ doc_id ∉ subset_ids then
            parseLoopP chunk_size max_docs subset_ids rest postings doc_count
          else
            let postings1 :=
              postings ++ (parse_document text).map (fun tf => (tf.1, doc_id, tf.2))
            if maxDocsReached max_docs (doc_count + 1) then
              if postings1.isEmpty then [] else [write_chunk postings1]
            else if chunk_size ≤ postings1.length then
              write_chunk postings1 ::
                parseLoopP chunk_size max_docs subset_ids rest [] (doc_count + 1)
            else
              parseLoopP chunk_size max_docs subset_ids rest postings1 (doc_count + 1)

/-- `run_parser` (src/search_system/parser/parser.py lines 14-78): parse
the collection lines and return the posting chunks written to disk.  A
whitespace-only line strips to `[]`, on which `splitFirstTab` is `none`, so
the `if not doc.strip()` skip coincides with the `len(parts) != 2` skip. -/
def runParser (lines : List (List Char)) (chunk_size : ℕ)
    (max_docs : Option ℕ) (subset_ids : List ℕ) :
    List (List (List Char × ℕ × ℕ)) :=
  parseLoopP chunk_size max_docs subset_ids lines [] 0

/-- The two-document corpus of spec scenario S2. -/
def corpusLine1 : List Char := "1\tthe quick brown fox".data

/-- Second line of the S2 corpus. -/
def corpusLine2 : List Char := "2\tThe quick blue fox".data

/-- A single five-term document: its five postings enter the buffer
together, so with `chunk_size = 4` one written chunk holds five postings. -/
def oneDocLine : List Char := "1\ta b c d e".data

/-! Sortedness of every written chunk. -/

theorem charToNat_inj {a b : Char} (h : a.toNat = b.toNat) : a = b :=
  Char.eq_of_val_eq (UInt32.ext h)

theorem listCharLT_trichotomy (a b : List Char) :
    listCharLT a b = true ∨ a = b ∨ listCharLT b a = true := by
  induction a generalizing b with
  | nil =>
      cases b with
      | nil => exact Or.inr (Or.inl rfl)
      | cons y ys => exact Or.inl rfl
  | cons x xs ih =>
      cases b with
      | nil => exact Or.inr (Or.inr rfl)
      | cons y ys =>
          rcases Nat.lt_trichotomy x.toNat y.toNat with h | h | h
          · left
            simp [listCharLT, h]
          · have hxy : x = y := charToNat_inj h
            subst hxy
            rcases ih ys with h1 | h1 | h1
            · left
              simpa [listCharLT] using h1
            · right; left
              rw [h1]
            · right; right
              simpa [listCharLT] using h1
          · right; right
            simp [listCharLT, h, Nat.lt_asymm h]

theorem postingKeyLE_total (p q : List Char × ℕ × ℕ) :
    postingKeyLE p q = true ∨ postingKeyLE q p = true := by
  rcases listCharLT_trichotomy p.1 q.1 with h | h | h
  · left
    simp [postingKeyLE, h]
  · rcases Nat.le_total p.2.1 q.2.1 with h2 | h2
    · left
      simp [postingKeyLE, h, h2]
    · right
      simp [postingKeyLE, h.symm, h2]
  · right
    simp [postingKeyLE, h]

theorem insertPosting_head {p b : List Char × ℕ × ℕ}
    {qs : List (List Char × ℕ × ℕ)}
    (h : (insertPosting p qs).head? = some b) :
    b = p ∨ qs.head? = some b := by
  cases qs with
  | nil =>
      simp only [insertPosting, List.head?] at h
      exact Or.inl (Option.some.inj h).symm
  | cons q' qs' =>
      simp only [insertPosting] at h
      split at h
      · right
        simpa [List.head?] using h
      · left
        exact (Option.some.inj h).symm

theorem chain'_insertPosting {l : List (List Char × ℕ × ℕ)}
    (p : List Char × ℕ × ℕ)
    (hl : List.Chain' (fun a b => postingKeyLE a b = true) l) :
    List.Chain' (fun a b => postingKeyLE a b = true) (insertPosting p l) := by
  induction l with
  | nil => simp [insertPosting]
  | cons q qs ih =>
      rw [List.chain'_cons'] at hl
      simp only [insertPosting]
      split
      · rename_i hle
        rw [List.chain'_cons']
        refine ⟨?_, ih hl.2⟩
        intro b hb
        rcases insertPosting_head hb with rfl | hh
        · exact hle
        · exact hl.1 b hh
      · rename_i hgt
        rcases postingKeyLE_total p q with hpq | hqp
        · rw [List.chain'_cons']
          refine ⟨?_, List.chain'_cons'.mpr hl⟩
          intro b hb
          simp only [List.head?, Option.mem_def, Option.some.injEq] at hb
          exact hb ▸ hpq
        · exact absurd hqp hgt

theorem write_chunk_sorted (postings : List (List Char × ℕ × ℕ)) :
    List.Chain' (fun a b => postingKeyLE a b = true) (write_chunk postings) := by
  have key : ∀ (l acc : List (List Char × ℕ × ℕ)),
      List.Chain' (fun a b => postingKeyLE a b = true) acc →
      List.Chain' (fun a b => postingKeyLE a b = true)
        (l.foldl (fun acc p => insertPosting p acc) acc) := by
    intro l
    induction l with
    | nil => intro acc hacc; exact hacc
    | cons p ps ih =>
        intro acc hacc
        exact ih _ (chain'_insertPosting p hacc)
  exact key postings [] (by simp)

theorem mem_parseLoopP {chunk_size : ℕ} {max_docs : Option ℕ}
    {subset_ids : List ℕ} :
    ∀ (lines : List (List Char)) (postings : List (List Char × ℕ × ℕ))
      (doc_count : ℕ) {c : List (List Char × ℕ × ℕ)},
      c ∈ parseLoopP chunk_size max_docs subset_ids lines postings doc_count →
      ∃ b, c = write_chunk b := by
  intro lines
  induction lines with
  | nil =>
      intro postings doc_count c hc
      simp only [parseLoopP] at hc
      split at hc
      · simp at hc
      · rw [List.mem_singleton] at hc
        exact ⟨postings, hc⟩
  | cons line rest ih =>
      intro postings doc_count c hc
      simp only [parseLoopP] at hc
      split at hc
      · exact ih _ _ hc
      · split at hc
        · exact ih _ _ hc
        · split at hc
          · split at hc
            · simp at hc
            · rw [List.mem_singleton] at hc
              exact ⟨_, hc⟩
          · split at hc
            · rw [List.mem_cons] at hc
              rcases hc with rfl | hc
              · exact ⟨_, rfl⟩
              · exact ih _ _ hc
            · exact ih _ _ hc

/-- C9 counterexample: on the S2 corpus with `chunk_size = 4` the parser
flushes once per document, so chunk 0 is the sorted postings of document 1
alone, not the claimed globally sorted first four postings. -/
theorem parser_chunking_counterexample :
    runParser [corpusLine1, corpusLine2] 4 none [] ≠
      [[("blue".data, 2, 1), ("brown".data, 1, 1),
        ("fox".data, 1, 1), ("fox".data, 2, 1)],
       [("quick".data, 1, 1), ("quick".data, 2, 1),
        ("the".data, 1, 1), ("the".data, 2, 1)]] := by
  decide

/-- C9 (amended): every written chunk is sorted by `(term, int(docID))`,
but a chunk may exceed `chunk_size` postings (the buffer is flushed only
after a whole document is appended), and on the S2 corpus with
`chunk_size = 4` chunk 0 holds document 1's four sorted postings and
chunk 1 document 2's, rather than a globally sorted split. -/
theorem parser_chunking (lines : List (List Char)) (chunk_size : ℕ)
    (max_docs : Option ℕ) (subset_ids : List ℕ)
    (chunk : List (List Char × ℕ × ℕ))
    (hc : chunk ∈ runParser lines chunk_size max_docs subset_ids) :
    List.Chain' (fun p q => postingKeyLE p q = true) chunk ∧
    runParser [corpusLine1, corpusLine2] 4 none [] =
      [[("brown".data, 1, 1), ("fox".data, 1, 1),
        ("quick".data, 1, 1), ("the".data, 1, 1)],
       [("blue".data, 2, 1), ("fox".data, 2, 1),
        ("quick".data, 2, 1), ("the".data, 2, 1)]] ∧
    (runParser [oneDocLine] 4 none []).map List.length = [5] := by
  refine ⟨?_, by decide, by decide⟩
  obtain ⟨b, rfl⟩ := mem_parseLoopP lines [] 0 hc
  exact write_chunk_sorted b

/-- Concrete instantiation of `parser_chunking` at chunk 0 of the S2 run. -/
theorem parser_chunking_witness :
    List.Chain' (fun p q => postingKeyLE p q = true)
      [(("brown").data, 1, 1), (("fox").data, 1, 1),
       (("quick").data, 1, 1), (("the").data, 1, 1)] ∧
    runParser [corpusLine1, corpusLine2] 4 none [] =
      [[("brown".data, 1, 1), ("fox".data, 1, 1),
        ("quick".data, 1, 1), ("the".data, 1, 1)],
       [("blue".data, 2, 1), ("fox".data, 2, 1),
        ("quick".data, 2, 1), ("the".data, 2, 1)]] ∧
    (runParser [oneDocLine] 4 none []).map List.length = [5] :=
  parser_chunking [corpusLine1, corpusLine2] 4 none []
    [(("brown").data, 1, 1), (("fox").data, 1, 1),
     (("quick").data, 1, 1), (("the").data, 1, 1)] (by decide)


/-! ### Top-k heap (heapq on `(score, docID)` tuples)

`heapq` maintains a binary min-heap under Python's lexicographic tuple
order.  The heap is modelled by its contract: the model keeps the heap's
elements as a list sorted ascending by `(score, docID)`, so `heap[0]` is
the minimum, `heappush` is ordered insertion, and `heapreplace` drops the
minimum and inserts.  Every quantity the engines observe — `len(heap)`,
`heap[0]`, and the final multiset of elements (sorted before being
returned) — agrees with the binary-heap implementation. -/

/-- Python tuple comparison `(score, docID) <= (score', docID')`. -/
def heapLE (p q : α × ℕ) : Bool :=
  decide (p.1 < q.1) || (decide (p.1 = q.1) && decide (p.2 ≤ q.2))

/-- `heapq.heappush`: ordered insertion (after equal elements). -/
def heapPush (h : List (α × ℕ)) (e : α × ℕ) : List (α × ℕ) :=
  match h with
  | [] => [e]
  | q :: qs => if heapLE q e then q :: heapPush qs e else e :: q :: qs

/-- `check_push_topk` (query.py lines 65-72): keep at most `k` best
`(score, docID)` pairs; `heapq.heapreplace` pops the minimum (the head of
the sorted model) and pushes the new element. -/
def check_push_topk (heap : List (α × ℕ)) (doc_id : ℕ) (score : α)
    (k : ℕ) : List (α × ℕ) :=
  if heap.length < k then heapPush heap (score, doc_id)
  else if (heap.headD (0, 0)).1 < score then heapPush (heap.drop 1) (score, doc_id)
  else heap

/-- `min_score_in_heap` (query.py lines 75-79): smallest score in the
heap, `0.0` while the heap is not full. -/
def min_score_in_heap (heap : List (α × ℕ)) (k : ℕ) : α :=
  if heap.length < k ∨ heap = [] then 0 else (heap.headD (0, 0)).1

/-- The final ranking comparison `key=lambda x: (-x[1], x[0])` on
`(docID, score)` pairs: score descending, then docID ascending. -/
def rankLE (p q : ℕ × α) : Bool :=
  decide (q.2 < p.2) || (decide (p.2 = q.2) && decide (p.1 ≤ q.1))

/-- Stable ordered insertion for the final `sorted(...)` call. -/
def insertRanked (p : ℕ × α) : List (ℕ × α) → List (ℕ × α)
  | [] => [p]
  | q :: qs => if rankLE q p then q :: insertRanked p qs else p :: q :: qs

/-- `sorted([(doc_id, score) for score, doc_id in heap], key=lambda x:
(-x[1], x[0]))`: swap the pairs and sort by score descending, docID
ascending (stable, though ties in both components cannot occur between
distinct pairs). -/
def sortResults (heap : List (α × ℕ)) : List (ℕ × α) :=
  (heap.map (fun e => (e.2, e.1))).foldl (fun acc p => insertRanked p acc) []

/-! ### DAAT traversal engines (query.py)

Python mutates the `InvertedList` objects in place; the model threads the
cursor list through each loop iteration.  `active_lists` holds references
into `lists`, so a filter recorded before an advance still observes the
advanced state: this is modelled by zipping the pre-advance and
post-advance cursor lists.  Each `while True` loop carries structural fuel
that dominates its iteration count (every iteration strictly advances a
cursor past a posting or a block). -/

/-- Stable ascending sort by `df` (`lists.sort(key=lambda lp: lp.df)`). -/
def insertByDf (p : InvertedList α) :
    List (InvertedList α) → List (InvertedList α)
  | [] => [p]
  | q :: qs => if q.df ≤ p.df then q :: insertByDf p qs else p :: q :: qs

/-- `lists.sort(key=lambda lp: lp.df)` (stable). -/
def sortByDf (lists : List (InvertedList α)) : List (InvertedList α) :=
  lists.foldl (fun acc p => insertByDf p acc) []

/-- Stable descending sort by `max_score`
(`lists.sort(key=..., reverse=True)` keeps ties in original order). -/
def insertByMaxScoreDesc (p : InvertedList α) :
    List (InvertedList α) → List (InvertedList α)
  | [] => [p]
  | q :: qs => if p.max_score ≤ q.max_score then q :: insertByMaxScoreDesc p qs
               else p :: q :: qs

/-- `lists.sort(key=lambda lp: lp.max_score, reverse=True)` (stable). -/
def sortByMaxScoreDesc (lists : List (InvertedList α)) :
    List (InvertedList α) :=
  lists.foldl (fun acc p => insertByMaxScoreDesc p acc) []

/-- One fuel unit per loop iteration of any engine: every iteration either
scores-and-advances a cursor past a posting or skips a whole block, so the
total number of postings plus blocks (plus one) dominates the iteration
count. -/
def engineFuel (lists : List (InvertedList α)) : ℕ :=
  (lists.map (fun lp => lp.flatDocs.length + lp.block_count + 1)).sum + 1

/-- The `while True` loop of `daat_conjunctive` (query.py lines 92-116).
`active_lists` is recomputed each iteration from the current states; the
advance-to-target pass mutates the shared objects, so the subsequent
`all(...)`, scoring and advance passes (which iterate over
`active_lists`) see the post-advance states: the model pairs each
pre-advance cursor with its post-advance state. -/
def conjLoop (k : ℕ) : ℕ → List (InvertedList α) → List (α × ℕ) →
    List (α × ℕ)
  | 0, _, heap => heap
  | fuel + 1, lists, heap =>
      if lists.all (fun lp => decide (INF_DOCID ≤ lp.doc_id)) then heap
      else
        let target :=
          ((lists.filter (fun lp => decide (lp.doc_id < INF_DOCID))).map
            (fun lp => lp.doc_id)).foldl max 0
        if INF_DOCID ≤ target then heap
        else
          let lists1 := lists.map
            (fun lp => if lp.doc_id < target then lp.nextGEQ target else lp)
          let pairs := lists.zip lists1
          if pairs.all (fun pq =>
              !decide (pq.1.doc_id < INF_DOCID) || decide (pq.2.doc_id = target)) then
            let score := (pairs.filter (fun pq =>
                decide (pq.1.doc_id < INF_DOCID) &&
                decide (pq.2.doc_id < INF_DOCID))).foldl
              (fun s pq => s + pq.2.getScore target) 0
            let heap1 := check_push_topk heap target score k
            let lists2 := pairs.map (fun pq =>
              if pq.1.doc_id < INF_DOCID then pq.2.nextGEQ (target + 1) else pq.2)
            conjLoop k fuel lists2 heap1
          else
            conjLoop k fuel lists1 heap

/-- `daat_conjunctive` (query.py lines 82-118): conjunctive (AND mode)
document-at-a-time traversal. -/
def daat_conjunctive (lists : List (InvertedList α)) (k : ℕ) :
    List (ℕ × α) :=
  if lists.isEmpty then []
  else
    let sorted := if 1 < lists.length then sortByDf lists else lists
    sortResults (conjLoop k (engineFuel sorted) sorted [])

/-- The `while True` loop of `daat_disjunctive_maxscore`
(query.py lines 132-159). -/
def maxscoreLoop (k : ℕ) : ℕ → List (InvertedList α) → List (α × ℕ) →
    List (α × ℕ)
  | 0, _, heap => heap
  | fuel + 1, lists, heap =>
      let current := (lists.map (fun lp => lp.doc_id)).foldl min INF_DOCID
      if INF_DOCID ≤ current then heap
      else
        let ub := ((lists.filter (fun lp => decide (lp.doc_id ≤ current))).map
          (fun lp => lp.max_score)).foldl (fun s x => s + x) 0
        let threshold := min_score_in_heap heap k
        let lists1 := lists.map
          (fun lp => if lp.doc_id = current then lp.nextGEQ (current + 1) else lp)
        if ub < threshold then
          maxscoreLoop k fuel lists1 heap
        else
          let score := ((lists.filter (fun lp => decide (lp.doc_id = current))).map
            (fun lp => lp.getScore current)).foldl (fun s x => s + x) 0
          maxscoreLoop k fuel lists1 (check_push_topk heap current score k)

/-- `daat_disjunctive_maxscore` (query.py lines 122-163): disjunctive
(OR mode) traversal with MaxScore pruning. -/
def daat_disjunctive_maxscore (lists : List (InvertedList α)) (k : ℕ) :
    List (ℕ × α) :=
  if lists.isEmpty then []
  else
    let sorted := sortByMaxScoreDesc lists
    sortResults (maxscoreLoop k (engineFuel sorted) sorted [])

/-- The index of the first cursor whose `doc_id` equals `m`
(`min(lists, key=lambda l: l.doc_id)` returns the first minimum). -/
def idxOfDoc (m : ℕ) : List (InvertedList α) → ℕ
  | [] => 0
  | lp :: rest => if lp.doc_id = m then 0 else idxOfDoc m rest + 1

/-- Replace the cursor at position `i` by its `advance_to_next_block()`. -/
def advanceAt : ℕ → List (InvertedList α) → List (InvertedList α)
  | _, [] => []
  | 0, lp :: rest => lp.advance_to_next_block :: rest
  | i + 1, lp :: rest => lp :: advanceAt i rest

/-- The `while True` loop of `daat_disjunctive_blockmax_wand`
(query.py lines 181-211).  `threshold` is loop state: it is set to
`topk[0][0]` after every positive-score candidate, even while the heap
holds fewer than `k` entries. -/
def bwandLoop (k : ℕ) : ℕ → List (InvertedList α) → List (α × ℕ) → α →
    List (α × ℕ)
  | 0, _, topk, _ => topk
  | fuel + 1, lists, topk, threshold =>
      let pivot := (lists.map (fun lp => lp.doc_id)).foldl min INF_DOCID
      if INF_DOCID ≤ pivot then topk
      else
        let ub := (lists.map (fun lp => lp.curr_block_max)).foldl
          (fun s x => s + x) 0
        if ub < threshold then
          bwandLoop k fuel (advanceAt (idxOfDoc pivot lists) lists) topk threshold
        else
          let score := ((lists.filter (fun lp => decide (lp.doc_id = pivot))).map
            (fun lp => lp.getScore pivot)).foldl (fun s x => s + x) 0
          let lists1 := lists.map
            (fun lp => if lp.doc_id = pivot then lp.nextGEQ (pivot + 1) else lp)
          if 0 < score then
            let topk1 :=
              if topk.length < k then heapPush topk (score, pivot)
              else if (topk.headD (0, 0)).1 < score then
                heapPush (topk.drop 1) (score, pivot)
              else topk
            bwandLoop k fuel lists1 topk1 (topk1.headD (0, 0)).1
          else
            bwandLoop k fuel lists1 topk threshold

/-- `daat_disjunctive_blockmax_wand` (query.py lines 167-213): disjunctive
traversal with Block-Max WAND pruning. -/
def daat_disjunctive_blockmax_wand (lists : List (InvertedList α))
    (k : ℕ) : List (ℕ × α) :=
  if lists.isEmpty then []
  else
    let sorted := sortByMaxScoreDesc lists
    sortResults (bwandLoop k (engineFuel sorted) sorted [] 0)

/-! ### Reference semantics for the disjunctive engines (spec P8)

`exhaustiveScan` is the specification-side reference: it scores every
candidate document of every query term with its full BM25 score and feeds
the candidates, in increasing docID order, through the same top-k heap. -/

/-- All frequencies of the posting list in on-disk order (aligned with
`flatDocs` blockwise). -/
def InvertedList.flatFreqs (c : InvertedList α) : List ℕ :=
  (c.blockData.map Prod.snd).flatten

/-- Reference score of document `d` for one term: the BM25 contribution
computed from the posting list itself (0 when `d` is not posted), with
the same default document length 1 as `getScore`. -/
def InvertedList.specScore (c : InvertedList α) (d : ℕ) : α :=
  match (c.flatDocs.zip c.flatFreqs).lookup d with
  | some f => c.getBM25 f ((c.page_table.lookup d).getD 1)
  | none => 0

/-- Reference full score of a candidate document: sum over all query
terms. -/
def fullScore (lists : List (InvertedList α)) (d : ℕ) : α :=
  (lists.map (fun lp => lp.specScore d)).sum

/-- Insert into a strictly sorted list, dropping duplicates. -/
def insertUnique (x : ℕ) : List ℕ → List ℕ
  | [] => [x]
  | y :: ys =>
      if x = y then y :: ys
      else if y < x then y :: insertUnique x ys
      else x :: y :: ys

/-- The strictly sorted list of the distinct elements of `l`. -/
def sortedDedup (l : List ℕ) : List ℕ :=
  l.foldl (fun acc x => insertUnique x acc) []

/-- All candidate documents of a query: the union of the terms' posting
docIDs, in increasing order. -/
def mergedCandidates (lists : List (InvertedList α)) : List ℕ :=
  sortedDedup ((lists.map (fun lp => lp.flatDocs)).flatten)

/-- Specification-side exhaustive scan: push every candidate document with
its full BM25 score through the top-k heap, then rank. -/
def exhaustiveScan (lists : List (InvertedList α)) (k : ℕ) :
    List (ℕ × α) :=
  sortResults ((mergedCandidates lists).foldl
    (fun h d => check_push_topk h d (fullScore lists d) k) [])

/-- Soundness of a cursor's term-level upper bound: `max_score` is
nonnegative and dominates the term's BM25 contribution to every posted
document. -/
def InvertedList.SoundBound (c : InvertedList α) : Prop :=
  0 ≤ c.max_score ∧ ∀ d ∈ c.flatDocs, c.specScore d ≤ c.max_score

instance (c : InvertedList α) : Decidable c.WF :=
  inferInstanceAs (Decidable
    ((∀ bl ∈ c.blockData, bl.1 ≠ [] ∧ bl.1.length = bl.2.length) ∧
     c.flatDocs.Pairwise (· < ·) ∧
     (∀ d ∈ c.flatDocs, d < INF_DOCID) ∧
     c.block_last_doc_ids.length = c.blockData.length ∧
     (∀ i, i < c.blockData.length →
       c.block_last_doc_ids.getD i 0 = (c.blockDocs i).getLastD 0)))

instance (c : InvertedList α) : Decidable c.Positioned :=
  inferInstanceAs (Decidable
    (c.curr_block_idx < c.block_count ∧
     c.curr_block_docIDs = c.blockDocs c.curr_block_idx ∧
     c.curr_block_freqs = c.blockFreqs c.curr_block_idx ∧
     c.curr_idx < c.curr_block_docIDs.length ∧
     c.doc_id = c.curr_block_docIDs.getD c.curr_idx 0))

instance (c : InvertedList α) : Decidable c.Exhausted :=
  inferInstanceAs (Decidable
    (c.block_count ≤ c.curr_block_idx ∧
     c.doc_id = INF_DOCID ∧
     (c.curr_block_docIDs = [] ∨
       ∃ i, i < c.block_count ∧ c.curr_block_docIDs = c.blockDocs i)))

instance (c : InvertedList α) : Decidable c.Inv :=
  inferInstanceAs (Decidable (c.WF ∧ (c.Positioned ∨ c.Exhausted)))

instance (c : InvertedList α) : Decidable c.SoundBound :=
  inferInstanceAs (Decidable
    (0 ≤ c.max_score ∧ ∀ d ∈ c.flatDocs, c.specScore d ≤ c.max_score))

/-! ### Arithmetic and list helpers for the MaxScore refinement proof -/

theorem foldl_add_eq_sum (l : List α) : ∀ a : α,
    l.foldl (fun s x => s + x) a = a + l.sum := by
  induction l with
  | nil => intro a; simp
  | cons x xs ih =>
      intro a
      simp only [List.foldl_cons, List.sum_cons, ih (a + x)]
      ring

theorem sum_map_filter_eq_sum_ite {β : Type} (l : List β) (p : β → Bool)
    (f : β → α) :
    ((l.filter p).map f).sum = (l.map (fun x => if p x then f x else 0)).sum := by
  induction l with
  | nil => simp
  | cons x xs ih =>
      by_cases hx : p x
      · simp [List.filter_cons, hx, ih]
      · simp [List.filter_cons, hx, ih]

theorem sum_map_nonneg {β : Type} (l : List β) (f : β → α)
    (h : ∀ x ∈ l, 0 ≤ f x) : 0 ≤ (l.map f).sum := by
  induction l with
  | nil => simp
  | cons x xs ih =>
      simp only [List.map_cons, List.sum_cons]
      have h1 := h x (List.mem_cons_self x xs)
      have h2 := ih (fun y hy => h y (List.mem_cons_of_mem x hy))
      linarith

theorem foldl_min_le_init (l : List ℕ) : ∀ a : ℕ, l.foldl min a ≤ a := by
  induction l with
  | nil => intro a; simp
  | cons x xs ih =>
      intro a
      calc (x :: xs).foldl min a = xs.foldl min (min a x) := rfl
        _ ≤ min a x := ih (min a x)
        _ ≤ a := min_le_left a x

theorem foldl_min_le_mem {l : List ℕ} {x : ℕ} (hx : x ∈ l) :
    ∀ a : ℕ, l.foldl min a ≤ x := by
  induction l with
  | nil => cases hx
  | cons y ys ih =>
      intro a
      rcases List.mem_cons.mp hx with rfl | hx2
      · calc (x :: ys).foldl min a = ys.foldl min (min a x) := rfl
          _ ≤ min a x := foldl_min_le_init ys (min a x)
          _ ≤ x := min_le_right a x
      · exact ih hx2 (min a y)

theorem foldl_min_cases (l : List ℕ) : ∀ a : ℕ,
    l.foldl min a = a ∨ l.foldl min a ∈ l := by
  induction l with
  | nil => intro a; exact Or.inl rfl
  | cons x xs ih =>
      intro a
      rcases ih (min a x) with h | h
      · rcases Nat.le_total a x with hax | hxa
        · left
          show xs.foldl min (min a x) = a
          rw [h, min_eq_left hax]
        · right
          show xs.foldl min (min a x) ∈ x :: xs
          rw [h, min_eq_right hxa]
          exact List.mem_cons_self x xs
      · right
        exact List.mem_cons_of_mem x h

theorem leastGEQ_cases (l : List ℕ) (k : ℕ) :
    leastGEQ l k = INF_DOCID ∨ (leastGEQ l k ∈ l ∧ k ≤ leastGEQ l k) := by
  rw [leastGEQ]
  rcases hf : l.filter (fun d => k ≤ d) with _ | ⟨x, xs⟩
  · left; rfl
  · right
    have hx : x ∈ l.filter (fun d => k ≤ d) := by rw [hf]; exact List.mem_cons_self x xs
    have := List.mem_filter.mp hx
    exact ⟨this.1, by simpa using this.2⟩

theorem leastGEQ_le_mem {l : List ℕ} (hp : l.Pairwise (· ≤ ·)) {d k : ℕ}
    (hd : d ∈ l) (hk : k ≤ d) : leastGEQ l k ≤ d := by
  induction l with
  | nil => cases hd
  | cons x xs ih =>
      rw [List.pairwise_cons] at hp
      rcases List.mem_cons.mp hd with rfl | hd2
      · rw [leastGEQ, List.filter_cons, if_pos (by simpa using hk)]
        exact le_refl _
      · by_cases hx : k ≤ x
        · rw [leastGEQ, List.filter_cons, if_pos (by simpa using hx)]
          exact hp.1 d hd2
        · rw [leastGEQ, List.filter_cons, if_neg (by simpa using hx)]
          exact ih hp.2 hd2

theorem leastGEQ_narrow {l : List ℕ} {t s : ℕ} (hts : t ≤ s)
    (hs : s ≤ leastGEQ l t) : leastGEQ l s = leastGEQ l t := by
  induction l with
  | nil => rfl
  | cons x xs ih =>
      by_cases hx : t ≤ x
      · have hlx : leastGEQ (x :: xs) t = x := by
          rw [leastGEQ, List.filter_cons, if_pos (by simpa using hx)]
          rfl
        rw [hlx] at hs
        rw [hlx, leastGEQ, List.filter_cons, if_pos (by simpa using hs)]
        rfl
      · have hxt : x < t := Nat.lt_of_not_le hx
        have hlx : leastGEQ (x :: xs) t = leastGEQ xs t := by
          rw [leastGEQ, List.filter_cons, if_neg (by simpa using hx), leastGEQ]
        rw [hlx] at hs
        rw [hlx, leastGEQ, List.filter_cons,
          if_neg (by simp; omega), leastGEQ]
        exact ih hs

theorem mem_insertUnique {x a : ℕ} : ∀ {l : List ℕ},
    a ∈ insertUnique x l ↔ a = x ∨ a ∈ l := by
  intro l
  induction l with
  | nil => simp [insertUnique]
  | cons y ys ih =>
      by_cases hxy : x = y
      · subst hxy
        rw [insertUnique, if_pos rfl]
        simp only [List.mem_cons]
        tauto
      · by_cases hlt : y < x
        · rw [insertUnique, if_neg hxy, if_pos hlt]
          simp only [List.mem_cons, ih]
          tauto
        · rw [insertUnique, if_neg hxy, if_neg hlt]
          simp only [List.mem_cons]

theorem pairwise_insertUnique {x : ℕ} : ∀ {l : List ℕ},
    l.Pairwise (· < ·) → (insertUnique x l).Pairwise (· < ·) := by
  intro l
  induction l with
  | nil => intro _; simp [insertUnique]
  | cons y ys ih =>
      intro hp
      rw [List.pairwise_cons] at hp
      rw [insertUnique]
      split
      · rename_i hxy
        exact List.pairwise_cons.mpr hp
      · split
        · rename_i hne hlt
          rw [List.pairwise_cons]
          refine ⟨?_, ih hp.2⟩
          intro b hb
          rcases mem_insertUnique.mp hb with rfl | hb2
          · exact hlt
          · exact hp.1 b hb2
        · rename_i hne hlt
          have hxlty : x < y := by
            rcases Nat.lt_trichotomy x y with h | h | h
            · exact h
            · exact absurd h hne
            · exact absurd h hlt
          rw [List.pairwise_cons]
          refine ⟨?_, List.pairwise_cons.mpr hp⟩
          intro b hb
          rcases List.mem_cons.mp hb with rfl | hb2
          · exact hxlty
          · exact Nat.lt_trans hxlty (hp.1 b hb2)

theorem sortedDedup_spec (l : List ℕ) :
    (sortedDedup l).Pairwise (· < ·) ∧ ∀ a, a ∈ sortedDedup l ↔ a ∈ l := by
  have key : ∀ (l acc : List ℕ), acc.Pairwise (· < ·) →
      (l.foldl (fun acc x => insertUnique x acc) acc).Pairwise (· < ·) ∧
      ∀ a, a ∈ l.foldl (fun acc x => insertUnique x acc) acc ↔ a ∈ acc ∨ a ∈ l := by
    intro l
    induction l with
    | nil => intro acc hacc; exact ⟨hacc, fun a => by simp⟩
    | cons x xs ih =>
        intro acc hacc
        obtain ⟨hp, hm⟩ := ih (insertUnique x acc) (pairwise_insertUnique hacc)
        refine ⟨hp, fun a => ?_⟩
        rw [List.foldl_cons] at *
        rw [hm a, mem_insertUnique]
        simp only [List.mem_cons]
        tauto
  obtain ⟨hp, hm⟩ := key l [] List.Pairwise.nil
  exact ⟨hp, fun a => by rw [sortedDedup, hm a]; simp⟩

theorem sorted_eq_of_mem_iff : ∀ {L1 L2 : List ℕ},
    L1.Pairwise (· < ·) → L2.Pairwise (· < ·) →
    (∀ a, a ∈ L1 ↔ a ∈ L2) → L1 = L2 := by
  intro L1
  induction L1 with
  | nil =>
      intro L2 _ _ hm
      cases L2 with
      | nil => rfl
      | cons y ys => exact absurd ((hm y).mpr (List.mem_cons_self y ys)) (by simp)
  | cons x xs ih =>
      intro L2 h1 h2 hm
      cases L2 with
      | nil => exact absurd ((hm x).mp (List.mem_cons_self x xs)) (by simp)
      | cons y ys =>
          rw [List.pairwise_cons] at h1 h2
          have hxy : x = y := by
            rcases List.mem_cons.mp ((hm x).mp (List.mem_cons_self x xs)) with h | h
            · exact h
            · rcases List.mem_cons.mp ((hm y).mpr (List.mem_cons_self y ys)) with h3 | h3
              · exact h3.symm
              · exact absurd (Nat.lt_trans (h2.1 x h) (h1.1 y h3)) (Nat.lt_irrefl y)
          subst hxy
          have htail : ∀ a, a ∈ xs ↔ a ∈ ys := by
            intro a
            constructor
            · intro ha
              rcases List.mem_cons.mp ((hm a).mp (List.mem_cons_of_mem x ha)) with rfl | h
              · exact absurd (h1.1 a ha) (Nat.lt_irrefl a)
              · exact h
            · intro ha
              rcases List.mem_cons.mp ((hm a).mpr (List.mem_cons_of_mem x ha)) with rfl | h
              · exact absurd (h2.1 a ha) (Nat.lt_irrefl a)
              · exact h
          rw [ih h1.2 h2.2 htail]

theorem filter_ge_split : ∀ {L : List ℕ}, L.Pairwise (· < ·) →
    ∀ {t v : ℕ}, v ∈ L → t ≤ v → (∀ d ∈ L, t ≤ d → v ≤ d) →
    L.filter (fun d => t ≤ d) = v :: L.filter (fun d => v + 1 ≤ d) := by
  intro L
  induction L with
  | nil => intro _ t v hv; cases hv
  | cons x xs ih =>
      intro hp t v hv htv hmin
      rw [List.pairwise_cons] at hp
      rcases List.mem_cons.mp hv with rfl | hv2
      · rw [List.filter_cons, if_pos (by simpa using htv),
          List.filter_cons, if_neg (by simp)]
        congr 1
        have h1 : xs.filter (fun d => t ≤ d) = xs := by
          rw [List.filter_eq_self]
          intro a ha
          simp only [decide_eq_true_eq]
          exact Nat.le_trans htv (Nat.le_of_lt (hp.1 a ha))
        have h2 : xs.filter (fun d => v + 1 ≤ d) = xs := by
          rw [List.filter_eq_self]
          intro a ha
          simp only [decide_eq_true_eq]
          exact hp.1 a ha
        rw [h1, h2]
      · have hxv : x < v := hp.1 v hv2
        have hxt : x < t := by
          by_contra hcon
          have hx : t ≤ x := Nat.le_of_not_lt hcon
          exact absurd (hmin x (List.mem_cons_self x xs) hx) (Nat.not_le_of_lt hxv)
        rw [List.filter_cons, if_neg (by simp; omega),
          List.filter_cons, if_neg (by simp; omega)]
        exact ih hp.2 hv2 htv (fun d hd => hmin d (List.mem_cons_of_mem x hd))

/-! ### `getScore` agrees with the reference score at the cursor position -/

theorem lookup_zip_none {d : ℕ} : ∀ (ds fs : List ℕ), d ∉ ds →
    (ds.zip fs).lookup d = none := by
  intro ds
  induction ds with
  | nil => intro fs _; rfl
  | cons x xs ih =>
      intro fs hd
      cases fs with
      | nil => rfl
      | cons f fs2 =>
          have hne : d ≠ x := fun h => hd (h ▸ List.mem_cons_self x xs)
          simp only [List.zip_cons_cons, List.lookup,
            beq_eq_false_iff_ne.mpr hne]
          exact ih fs2 (fun h => hd (List.mem_cons_of_mem x h))

theorem lookup_zip_pos : ∀ (ds fs : List ℕ) (j : ℕ),
    ds.Pairwise (· < ·) → j < ds.length → j < fs.length →
    (ds.zip fs).lookup (ds.getD j 0) = some (fs.getD j 0) := by
  intro ds
  induction ds with
  | nil => intro fs j _ hj _; simp at hj
  | cons x xs ih =>
      intro fs j hp hj hjf
      cases fs with
      | nil => simp at hjf
      | cons f fs2 =>
          rw [List.pairwise_cons] at hp
          cases j with
          | zero =>
              simp only [List.zip_cons_cons, List.getD_cons_zero, List.lookup,
                beq_self_eq_true]
          | succ j2 =>
              have hj2 : j2 < xs.length := by simpa using hj
              have hkey : xs.getD j2 0 ∈ xs := getD_mem hj2
              have hne : xs.getD j2 0 ≠ x :=
                Nat.ne_of_gt (hp.1 _ hkey)
              simp only [List.zip_cons_cons, List.getD_cons_succ, List.lookup,
                beq_eq_false_iff_ne.mpr hne]
              exact ih fs2 j2 hp.2 hj2 (by simpa using hjf)

theorem InvertedList.specScore_notin {c : InvertedList α} {d : ℕ}
    (hd : d ∉ c.flatDocs) : c.specScore d = 0 := by
  rw [InvertedList.specScore, lookup_zip_none _ _ hd]

theorem flatten_map_length_eq : ∀ (bs : List (List ℕ × List ℕ)),
    (∀ bl ∈ bs, bl.1.length = bl.2.length) →
    ((bs.map Prod.fst).flatten).length = ((bs.map Prod.snd).flatten).length := by
  intro bs
  induction bs with
  | nil => intro _; rfl
  | cons b rest ih =>
      intro h
      simp only [List.map_cons, List.flatten_cons, List.length_append]
      rw [h b (List.mem_cons_self b rest),
        ih (fun bl hbl => h bl (List.mem_cons_of_mem b hbl))]

theorem InvertedList.flatFreqs_length {c : InvertedList α}
    (hblocks : ∀ bl ∈ c.blockData, bl.1 ≠ [] ∧ bl.1.length = bl.2.length) :
    c.flatFreqs.length = c.flatDocs.length := by
  rw [InvertedList.flatFreqs, InvertedList.flatDocs]
  exact (flatten_map_length_eq c.blockData (fun bl hbl => (hblocks bl hbl).2)).symm

/-- Freq-side analogue of `flat_decomp` + `flatFrom_succ`: the flattened
frequency list splits around block `i`. -/
theorem InvertedList.flatFreqs_decomp (c : InvertedList α) {i : ℕ}
    (hi : i < c.blockData.length) :
    c.flatFreqs = ((c.blockData.take i).map Prod.snd).flatten ++
      (c.blockFreqs i ++ ((c.blockData.drop (i + 1)).map Prod.snd).flatten) := by
  rw [InvertedList.flatFreqs]
  conv_lhs => rw [← List.take_append_drop i c.blockData]
  rw [List.map_append, List.flatten_append]
  congr 1
  rw [List.drop_eq_getElem_cons hi, List.map_cons, List.flatten_cons]
  rw [InvertedList.blockFreqs]
  congr 1
  rw [List.getD_eq_getElem?_getD, List.getElem?_eq_getElem hi]
  rfl

/-- Doc-side split of `flatDocs` around block `i` (restatement of
`flat_decomp`/`flatFrom_succ` without `flatBefore`/`flatFrom`). -/
theorem InvertedList.flatDocs_decomp (c : InvertedList α) {i : ℕ}
    (hi : i < c.blockData.length) :
    c.flatDocs = ((c.blockData.take i).map Prod.fst).flatten ++
      (c.blockDocs i ++ ((c.blockData.drop (i + 1)).map Prod.fst).flatten) := by
  have h := c.flat_decomp i
  rw [c.flatFrom_succ hi] at h
  exact h

theorem getD_middle {A B C : List ℕ} {j : ℕ} (hj : j < B.length) :
    (A ++ (B ++ C)).getD (A.length + j) 0 = B.getD j 0 := by
  rw [List.getD_append_right _ _ _ _ (by omega)]
  have h2 : A.length + j - A.length = j := by omega
  rw [h2, List.getD_append _ _ _ _ hj]

theorem InvertedList.specScore_pos {c : InvertedList α} (hwf : c.WF)
    {i j : ℕ} (hi : i < c.block_count) (hj : j < (c.blockDocs i).length) :
    c.specScore ((c.blockDocs i).getD j 0) =
      c.getBM25 ((c.blockFreqs i).getD j 0)
        ((c.page_table.lookup ((c.blockDocs i).getD j 0)).getD 1) := by
  obtain ⟨hblocks, hflat, hbound, hlastlen, hlastmeta⟩ := hwf
  have hlen : (c.blockDocs i).length = (c.blockFreqs i).length := by
    rw [InvertedList.blockDocs, InvertedList.blockFreqs]
    exact (hblocks _ (blockData_getD_mem hi)).2
  have hbefore : (((c.blockData.take i).map Prod.fst).flatten).length =
      (((c.blockData.take i).map Prod.snd).flatten).length := by
    refine flatten_map_length_eq _ (fun bl hbl => ?_)
    exact (hblocks bl (List.mem_of_mem_take hbl)).2
  have hdocs := c.flatDocs_decomp hi
  have hfreqs := c.flatFreqs_decomp hi
  have hgetdoc : c.flatDocs.getD
      ((((c.blockData.take i).map Prod.fst).flatten).length + j) 0 =
      (c.blockDocs i).getD j 0 := by
    rw [hdocs]
    exact getD_middle hj
  have hgetfreq : c.flatFreqs.getD
      ((((c.blockData.take i).map Prod.fst).flatten).length + j) 0 =
      (c.blockFreqs i).getD j 0 := by
    rw [hfreqs, hbefore]
    exact getD_middle (by omega)
  have hjlen : (((c.blockData.take i).map Prod.fst).flatten).length + j <
      c.flatDocs.length := by
    rw [hdocs]
    simp only [List.length_append]
    omega
  have hjflen : (((c.blockData.take i).map Prod.fst).flatten).length + j <
      c.flatFreqs.length := by
    rw [c.flatFreqs_length hblocks]
    exact hjlen
  rw [InvertedList.specScore, ← hgetdoc, ← hgetfreq,
    lookup_zip_pos c.flatDocs c.flatFreqs _ hflat hjlen hjflen]

theorem InvertedList.getScore_spec {c : InvertedList α} (hwf : c.WF)
    (hpos : c.Positioned) : c.getScore c.doc_id = c.specScore c.doc_id := by
  obtain ⟨hib, hdocs, hfreqs, hidx, hdoc⟩ := hpos
  have hblocks := hwf.1
  have hlen : (c.blockDocs c.curr_block_idx).length =
      (c.blockFreqs c.curr_block_idx).length := by
    rw [InvertedList.blockDocs, InvertedList.blockFreqs]
    exact (hblocks _ (blockData_getD_mem hib)).2
  rw [InvertedList.getScore]
  rw [if_neg, if_neg (by omega)]
  · rw [if_neg (by rw [hdoc]; simp)]
    rw [hdoc, hdocs, hfreqs]
    exact (c.specScore_pos hwf hib (by rw [← hdocs]; exact hidx)).symm
  · push_neg
    constructor
    · rw [hdocs]
      exact c.blockDocs_ne_nil hblocks hib
    · rw [hfreqs]
      intro hnil
      have h0 : (c.blockFreqs c.curr_block_idx).length = 0 := by rw [hnil]; rfl
      rw [← hlen] at h0
      rw [hdocs] at hidx
      omega

/-! ### Static-field transport and pruning lemmas -/

theorem InvertedList.StaticEq.flatFreqs_eq {c c2 : InvertedList α}
    (h : c.StaticEq c2) : c2.flatFreqs = c.flatFreqs := by
  rw [InvertedList.flatFreqs, InvertedList.flatFreqs, h.1]

theorem InvertedList.StaticEq.getBM25_eq {c c2 : InvertedList α}
    (h : c.StaticEq c2) (freq doc_len : ℕ) :
    c2.getBM25 freq doc_len = c.getBM25 freq doc_len := by
  rw [InvertedList.getBM25, InvertedList.getBM25,
    h.2.2.2.2.1, h.2.2.2.2.2.1, h.2.2.2.2.2.2.1, h.2.2.2.2.2.2.2.1]

theorem InvertedList.StaticEq.specScore_eq {c c2 : InvertedList α}
    (h : c.StaticEq c2) (d : ℕ) : c2.specScore d = c.specScore d := by
  rw [InvertedList.specScore, InvertedList.specScore,
    h.flatDocs_eq, h.flatFreqs_eq, h.2.2.2.2.2.2.2.2.1]
  rcases (c.flatDocs.zip c.flatFreqs).lookup d with _ | f
  · rfl
  · exact h.getBM25_eq f ((List.lookup d c.page_table).getD 1)

theorem InvertedList.StaticEq.max_score_eq {c c2 : InvertedList α}
    (h : c.StaticEq c2) : c2.max_score = c.max_score := h.2.2.2.1

theorem InvertedList.StaticEq.soundBound {c c2 : InvertedList α}
    (h : c.StaticEq c2) (hs : c.SoundBound) : c2.SoundBound := by
  obtain ⟨h0, hb⟩ := hs
  refine ⟨by rw [h.max_score_eq]; exact h0, ?_⟩
  intro d hd
  rw [h.max_score_eq, h.specScore_eq]
  exact hb d (by rw [← h.flatDocs_eq]; exact hd)

/-- If the heap threshold strictly exceeds a nonnegative upper bound of
`score`, the push is a no-op (the heap is necessarily full). -/
theorem check_push_prune {heap : List (α × ℕ)} {k : ℕ} {d : ℕ}
    {score ub : α} (hub : 0 ≤ ub) (hs : score ≤ ub)
    (ht : ub < min_score_in_heap heap k) :
    check_push_topk heap d score k = heap := by
  rw [min_score_in_heap] at ht
  split at ht
  · exact absurd (lt_of_le_of_lt hub ht) (lt_irrefl 0)
  · rename_i hfull
    push_neg at hfull
    rw [check_push_topk, if_neg (by omega), if_neg (by push_neg; linarith)]

/-- The score the engines accumulate over the cursors positioned at the
current document equals the reference full score, provided every cursor
is at its least posting `≥ t` and the current document is the minimum of
the cursor positions. -/
theorem engine_score_eq {lists : List (InvertedList α)} {t current : ℕ}
    (h : ∀ lp ∈ lists, lp.Inv ∧ lp.doc_id = leastGEQ lp.flatDocs t)
    (hmin : ∀ lp ∈ lists, current ≤ lp.doc_id)
    (ht : t ≤ current) (hinf : current < INF_DOCID) :
    (((lists.filter (fun lp => decide (lp.doc_id = current))).map
      (fun lp => lp.getScore current)).foldl (fun s x => s + x) 0 : α) =
      fullScore lists current := by
  rw [foldl_add_eq_sum, zero_add, sum_map_filter_eq_sum_ite, fullScore]
  congr 1
  apply List.map_congr_left
  intro lp hlp
  obtain ⟨⟨hwf, hpos⟩, hfront⟩ := h lp hlp
  by_cases hd : lp.doc_id = current
  · rw [if_pos (by simpa using hd)]
    have hposit : lp.Positioned := by
      rcases hpos with hp | hp
      · exact hp
      · rw [hp.2.1] at hd
        omega
    rw [← hd, InvertedList.getScore_spec hwf hposit]
  · rw [if_neg (by simpa using hd)]
    have hgt : current < lp.doc_id :=
      Nat.lt_of_le_of_ne (hmin lp hlp) (fun h2 => hd h2.symm)
    have hnotin : current ∉ lp.flatDocs := by
      intro hmem
      have hle := leastGEQ_le_mem
        (hwf.2.1.imp (fun h3 => Nat.le_of_lt h3)) hmem ht
      rw [← hfront] at hle
      omega
    exact (lp.specScore_notin hnotin).symm

theorem InvertedList.specScore_zero_of_lt_doc {lp : InvertedList α}
    (hwf : lp.WF) {t current : ℕ}
    (hfront : lp.doc_id = leastGEQ lp.flatDocs t) (ht : t ≤ current)
    (hgt : current < lp.doc_id) : lp.specScore current = 0 := by
  apply lp.specScore_notin
  intro hmem
  have hle := leastGEQ_le_mem
    (hwf.2.1.imp (fun h3 => Nat.le_of_lt h3)) hmem ht
  rw [← hfront] at hle
  omega

theorem fullScore_le_ub {lists : List (InvertedList α)} {t current : ℕ}
    (h : ∀ lp ∈ lists, lp.Inv ∧ lp.SoundBound ∧
      lp.doc_id = leastGEQ lp.flatDocs t)
    (hmin : ∀ lp ∈ lists, current ≤ lp.doc_id) (ht : t ≤ current) :
    (0 : α) ≤ ((lists.filter (fun lp => decide (lp.doc_id ≤ current))).map
        (fun lp => lp.max_score)).foldl (fun s x => s + x) 0 ∧
    fullScore lists current ≤
      ((lists.filter (fun lp => decide (lp.doc_id ≤ current))).map
        (fun lp => lp.max_score)).foldl (fun s x => s + x) 0 := by
  rw [foldl_add_eq_sum, zero_add, sum_map_filter_eq_sum_ite]
  constructor
  · apply sum_map_nonneg
    intro lp hlp
    split
    · exact (h lp hlp).2.1.1
    · exact le_refl 0
  · rw [fullScore]
    apply List.sum_le_sum
    intro lp hlp
    obtain ⟨⟨hwf, _⟩, ⟨hnn, hbd⟩, hfront⟩ := h lp hlp
    by_cases hle : lp.doc_id ≤ current
    · rw [if_pos (by simpa using hle)]
      by_cases hmem : current ∈ lp.flatDocs
      · exact hbd current hmem
      · rw [lp.specScore_notin hmem]
        exact hnn
    · rw [if_neg (by simpa using hle)]
      rw [lp.specScore_zero_of_lt_doc hwf hfront ht (by omega)]

theorem step_invariants {lists : List (InvertedList α)} {t current : ℕ}
    (h : ∀ lp ∈ lists, lp.Inv ∧ lp.SoundBound ∧
      lp.doc_id = leastGEQ lp.flatDocs t)
    (hmin : ∀ lp ∈ lists, current ≤ lp.doc_id) (ht : t ≤ current) :
    ∀ lp2 ∈ lists.map (fun lp =>
        if lp.doc_id = current then lp.nextGEQ (current + 1) else lp),
      lp2.Inv ∧ lp2.SoundBound ∧
        lp2.doc_id = leastGEQ lp2.flatDocs (current + 1) := by
  intro lp2 hlp2
  obtain ⟨lp, hlp, rfl⟩ := List.mem_map.mp hlp2
  obtain ⟨hinv, hsb, hfront⟩ := h lp hlp
  by_cases hd : lp.doc_id = current
  · rw [if_pos hd]
    obtain ⟨hstat, hinv2, hdoc2, _⟩ :=
      nextGEQ_spec hinv (show lp.doc_id ≤ current + 1 by omega)
    refine ⟨hinv2, hstat.soundBound hsb, ?_⟩
    rw [hdoc2, hstat.flatDocs_eq]
  · rw [if_neg hd]
    refine ⟨hinv, hsb, ?_⟩
    have hgt : current < lp.doc_id :=
      Nat.lt_of_le_of_ne (hmin lp hlp) (fun h2 => hd h2.symm)
    have hs : current + 1 ≤ leastGEQ lp.flatDocs t := by
      rw [← hfront]
      omega
    rw [hfront]
    exact (leastGEQ_narrow (by omega) hs).symm

theorem countP_lt_of_mem {l : List ℕ} {p q : ℕ → Bool}
    (h : ∀ a ∈ l, p a = true → q a = true) {x : ℕ} (hx : x ∈ l)
    (hqx : q x = true) (hpx : p x = false) : l.countP p < l.countP q := by
  induction l with
  | nil => cases hx
  | cons y ys ih =>
      rcases List.mem_cons.mp hx with rfl | hx2
      · rw [List.countP_cons, List.countP_cons, hqx, hpx]
        norm_num
        have hle := List.countP_mono_left
          (fun a ha => h a (List.mem_cons_of_mem x ha))
        omega
      · rw [List.countP_cons, List.countP_cons]
        have hlt := ih (fun a ha hpa => h a (List.mem_cons_of_mem y ha) hpa) hx2
        by_cases hpy : p y = true
        · rw [hpy, h y (List.mem_cons_self y ys) hpy]
          norm_num
          omega
        · rw [Bool.not_eq_true] at hpy
          rw [hpy]
          norm_num
          split <;> omega

/-- Termination measure: the number of postings at or after each cursor. -/
def cursorsMeasure (lists : List (InvertedList α)) : ℕ :=
  (lists.map (fun lp =>
    lp.flatDocs.countP (fun d => decide (lp.doc_id ≤ d)))).sum

theorem measure_decrease {lists : List (InvertedList α)} {t current : ℕ}
    (h : ∀ lp ∈ lists, lp.Inv ∧ lp.SoundBound ∧
      lp.doc_id = leastGEQ lp.flatDocs t)
    (hmin : ∀ lp ∈ lists, current ≤ lp.doc_id) (hinf : current < INF_DOCID)
    (hatt : ∃ lp ∈ lists, lp.doc_id = current) :
    cursorsMeasure (lists.map (fun lp =>
      if lp.doc_id = current then lp.nextGEQ (current + 1) else lp)) <
      cursorsMeasure lists := by
  rw [cursorsMeasure, cursorsMeasure, List.map_map]
  apply List.sum_lt_sum
  · intro lp hlp
    obtain ⟨hinv, _, hfront⟩ := h lp hlp
    by_cases hd : lp.doc_id = current
    · simp only [Function.comp_apply, if_pos hd]
      obtain ⟨hstat, _, hdoc2, _⟩ :=
        nextGEQ_spec hinv (show lp.doc_id ≤ current + 1 by omega)
      rw [hstat.flatDocs_eq]
      apply List.countP_mono_left
      intro a _ ha
      simp only [decide_eq_true_eq] at ha ⊢
      have hge : current + 1 ≤ (lp.nextGEQ (current + 1)).doc_id := by
        rw [hdoc2]
        rcases leastGEQ_cases lp.flatDocs (current + 1) with hc | ⟨_, hc⟩
        · rw [hc]; omega
        · exact hc
      omega
    · simp only [Function.comp_apply, if_neg hd]
      exact le_refl _
  · obtain ⟨lp, hlp, hd⟩ := hatt
    refine ⟨lp, hlp, ?_⟩
    simp only [Function.comp_apply, if_pos hd]
    obtain ⟨hinv, _, hfront⟩ := h lp hlp
    obtain ⟨hstat, _, hdoc2, _⟩ :=
      nextGEQ_spec hinv (show lp.doc_id ≤ current + 1 by omega)
    rw [hstat.flatDocs_eq]
    have hcurmem : current ∈ lp.flatDocs := by
      rcases leastGEQ_cases lp.flatDocs t with hc | ⟨hc, _⟩
      · rw [← hfront] at hc
        rw [hd] at hc
        rw [hc] at hinf
        omega
      · rw [← hfront, hd] at hc
        exact hc
    apply countP_lt_of_mem _ hcurmem
    · simp only [decide_eq_true_eq]
      omega
    · simp only [decide_eq_false_iff_not, not_le]
      have hge : current + 1 ≤ (lp.nextGEQ (current + 1)).doc_id := by
        rw [hdoc2]
        rcases leastGEQ_cases lp.flatDocs (current + 1) with hc | ⟨_, hc⟩
        · rw [hc]; omega
        · exact hc
      omega
    · intro a _ ha
      simp only [decide_eq_true_eq] at ha ⊢
      have hge : current + 1 ≤ (lp.nextGEQ (current + 1)).doc_id := by
        rw [hdoc2]
        rcases leastGEQ_cases lp.flatDocs (current + 1) with hc | ⟨_, hc⟩
        · rw [hc]; omega
        · exact hc
      omega

/-- Core refinement: with sound term bounds, the MaxScore loop computes
exactly the fold of `check_push_topk` over the remaining candidate
documents (those `≥ t`) in increasing order. -/
theorem maxscoreLoop_sync {k : ℕ} {L : List ℕ} (hL : L.Pairwise (· < ·))
    (σ : ℕ → α) :
    ∀ (fuel : ℕ) (lists : List (InvertedList α)) (heap : List (α × ℕ))
      (t : ℕ),
      (∀ lp ∈ lists, lp.Inv ∧ lp.SoundBound ∧
        lp.doc_id = leastGEQ lp.flatDocs t) →
      (∀ d, d ∈ L ↔ ∃ lp ∈ lists, d ∈ lp.flatDocs) →
      (∀ d, σ d = (lists.map (fun lp => lp.specScore d)).sum) →
      cursorsMeasure lists < fuel →
      maxscoreLoop k fuel lists heap =
        (L.filter (fun d => t ≤ d)).foldl
          (fun h d => check_push_topk h d (σ d) k) heap := by
  intro fuel
  induction fuel with
  | zero => intro lists heap t _ _ _ hfuel; omega
  | succ fuel ih =>
      intro lists heap t h hmem hσ hfuel
      simp only [maxscoreLoop]
      by_cases hcur :
          INF_DOCID ≤ (lists.map (fun lp => lp.doc_id)).foldl min INF_DOCID
      · rw [if_pos hcur]
        have hempty : L.filter (fun d => t ≤ d) = [] := by
          rw [List.filter_eq_nil_iff]
          intro d hd
          simp only [decide_eq_true_eq]
          intro htd
          obtain ⟨lp, hlp, hdm⟩ := (hmem d).mp hd
          obtain ⟨⟨hwf, _⟩, _, hfront⟩ := h lp hlp
          have h1 : leastGEQ lp.flatDocs t ≤ d :=
            leastGEQ_le_mem (hwf.2.1.imp (fun h3 => Nat.le_of_lt h3)) hdm htd
          have h2 : (lists.map (fun lp => lp.doc_id)).foldl min INF_DOCID ≤
              lp.doc_id :=
            foldl_min_le_mem (List.mem_map_of_mem _ hlp) INF_DOCID
          have h3 : d < INF_DOCID := hwf.2.2.1 d hdm
          rw [hfront] at h2
          omega
        rw [hempty]
        rfl
      · rw [if_neg hcur]
        push_neg at hcur
        have hminle : ∀ lp ∈ lists,
            (lists.map (fun lp => lp.doc_id)).foldl min INF_DOCID ≤
              lp.doc_id :=
          fun lp hlp => foldl_min_le_mem (List.mem_map_of_mem _ hlp) INF_DOCID
        obtain ⟨lp0, hlp0, hlp0doc⟩ :
            ∃ lp ∈ lists, lp.doc_id =
              (lists.map (fun lp => lp.doc_id)).foldl min INF_DOCID := by
          rcases foldl_min_cases (lists.map (fun lp => lp.doc_id)) INF_DOCID
            with hc | hc
          · rw [hc] at hcur
            omega
          · obtain ⟨lp, hlp, heq⟩ := List.mem_map.mp hc
            exact ⟨lp, hlp, heq⟩
        obtain ⟨⟨hwf0, _⟩, _, hfront0⟩ := h lp0 hlp0
        obtain ⟨hcur_mem, hcur_ge⟩ :
            (lists.map (fun lp => lp.doc_id)).foldl min INF_DOCID ∈
              lp0.flatDocs ∧
            t ≤ (lists.map (fun lp => lp.doc_id)).foldl min INF_DOCID := by
          rcases leastGEQ_cases lp0.flatDocs t with hc | ⟨hc1, hc2⟩
          · rw [← hfront0, hlp0doc] at hc
            omega
          · rw [← hfront0, hlp0doc] at hc1 hc2
            exact ⟨hc1, hc2⟩
        have hminL : ∀ d ∈ L, t ≤ d →
            (lists.map (fun lp => lp.doc_id)).foldl min INF_DOCID ≤ d := by
          intro d hd htd
          obtain ⟨lp, hlp, hdm⟩ := (hmem d).mp hd
          obtain ⟨⟨hwf, _⟩, _, hfront⟩ := h lp hlp
          have h1 : leastGEQ lp.flatDocs t ≤ d :=
            leastGEQ_le_mem (hwf.2.1.imp (fun h3 => Nat.le_of_lt h3)) hdm htd
          have h2 := hminle lp hlp
          rw [hfront] at h2
          omega
        have hsplit := filter_ge_split hL
          ((hmem _).mpr ⟨lp0, hlp0, hcur_mem⟩) hcur_ge hminL
        rw [hsplit, List.foldl_cons]
        have h2 : ∀ lp ∈ lists, lp.Inv ∧
            lp.doc_id = leastGEQ lp.flatDocs t :=
          fun lp hlp => ⟨(h lp hlp).1, (h lp hlp).2.2⟩
        have hscore := engine_score_eq h2 hminle hcur_ge hcur
        have hstep := step_invariants h hminle hcur_ge
        have hflat1 : ∀ lp ∈ lists,
            (if lp.doc_id =
                (lists.map (fun lp => lp.doc_id)).foldl min INF_DOCID then
              lp.nextGEQ
                ((lists.map (fun lp => lp.doc_id)).foldl min INF_DOCID + 1)
            else lp).flatDocs = lp.flatDocs := by
          intro lp hlp
          by_cases hd : lp.doc_id =
              (lists.map (fun lp => lp.doc_id)).foldl min INF_DOCID
          · rw [if_pos hd]
            obtain ⟨hstat, _, _, _⟩ :=
              nextGEQ_spec (h lp hlp).1 (show lp.doc_id ≤
                (lists.map (fun lp => lp.doc_id)).foldl min INF_DOCID + 1
                by omega)
            exact hstat.flatDocs_eq
          · rw [if_neg hd]
        have hspec1 : ∀ lp ∈ lists, ∀ d,
            (if lp.doc_id =
                (lists.map (fun lp => lp.doc_id)).foldl min INF_DOCID then
              lp.nextGEQ
                ((lists.map (fun lp => lp.doc_id)).foldl min INF_DOCID + 1)
            else lp).specScore d = lp.specScore d := by
          intro lp hlp d
          by_cases hd : lp.doc_id =
              (lists.map (fun lp => lp.doc_id)).foldl min INF_DOCID
          · rw [if_pos hd]
            obtain ⟨hstat, _, _, _⟩ :=
              nextGEQ_spec (h lp hlp).1 (show lp.doc_id ≤
                (lists.map (fun lp => lp.doc_id)).foldl min INF_DOCID + 1
                by omega)
            exact hstat.specScore_eq d
          · rw [if_neg hd]
        have hmem1 : ∀ d, d ∈ L ↔ ∃ lp2 ∈ lists.map (fun lp =>
            if lp.doc_id =
                (lists.map (fun lp => lp.doc_id)).foldl min INF_DOCID then
              lp.nextGEQ
                ((lists.map (fun lp => lp.doc_id)).foldl min INF_DOCID + 1)
            else lp), d ∈ lp2.flatDocs := by
          intro d
          rw [hmem d]
          constructor
          · rintro ⟨lp, hlp, hdm⟩
            exact ⟨_, List.mem_map_of_mem _ hlp, by rw [hflat1 lp hlp]; exact hdm⟩
          · rintro ⟨lp2, hlp2, hdm⟩
            obtain ⟨lp, hlp, rfl⟩ := List.mem_map.mp hlp2
            rw [hflat1 lp hlp] at hdm
            exact ⟨lp, hlp, hdm⟩
        have hσ1 : ∀ d, σ d = ((lists.map (fun lp =>
            if lp.doc_id =
                (lists.map (fun lp => lp.doc_id)).foldl min INF_DOCID then
              lp.nextGEQ
                ((lists.map (fun lp => lp.doc_id)).foldl min INF_DOCID + 1)
            else lp)).map (fun lp => lp.specScore d)).sum := by
          intro d
          rw [hσ d, List.map_map]
          congr 1
          apply List.map_congr_left
          intro lp hlp
          exact (hspec1 lp hlp d).symm
        have hfuel1 : cursorsMeasure (lists.map (fun lp =>
            if lp.doc_id =
                (lists.map (fun lp => lp.doc_id)).foldl min INF_DOCID then
              lp.nextGEQ
                ((lists.map (fun lp => lp.doc_id)).foldl min INF_DOCID + 1)
            else lp)) < fuel := by
          have hdec := measure_decrease h hminle hcur ⟨lp0, hlp0, hlp0doc⟩
          omega
        have hub := fullScore_le_ub h hminle hcur_ge
        by_cases hpr :
            ((lists.filter (fun lp => decide (lp.doc_id ≤
                (lists.map (fun lp => lp.doc_id)).foldl min INF_DOCID))).map
              (fun lp => lp.max_score)).foldl (fun s x => s + x) 0 <
              min_score_in_heap heap k
        · rw [if_pos hpr]
          have hpush : check_push_topk heap
              ((lists.map (fun lp => lp.doc_id)).foldl min INF_DOCID)
              (σ ((lists.map (fun lp => lp.doc_id)).foldl min INF_DOCID)) k =
              heap := by
            apply check_push_prune hub.1 _ hpr
            rw [hσ]
            exact hub.2
          rw [hpush]
          exact ih _ heap _ hstep hmem1 hσ1 hfuel1
        · rw [if_neg hpr]
          have hs : (((lists.filter (fun lp => decide (lp.doc_id =
              (lists.map (fun lp => lp.doc_id)).foldl min INF_DOCID))).map
              (fun lp => lp.getScore
                ((lists.map (fun lp => lp.doc_id)).foldl min INF_DOCID))).foldl
              (fun s x => s + x) 0 : α) =
              σ ((lists.map (fun lp => lp.doc_id)).foldl min INF_DOCID) := by
            rw [hscore, hσ]
            rfl
          rw [hs]
          exact ih _ _ _ hstep hmem1 hσ1 hfuel1

theorem insertByMaxScoreDesc_perm (p : InvertedList α) :
    ∀ (l : List (InvertedList α)), (insertByMaxScoreDesc p l).Perm (p :: l) := by
  intro l
  induction l with
  | nil => exact List.Perm.refl _
  | cons q qs ih =>
      rw [insertByMaxScoreDesc]
      split
      · exact (List.Perm.cons q ih).trans (List.Perm.swap p q qs)
      · exact List.Perm.refl _

theorem sortByMaxScoreDesc_perm (lists : List (InvertedList α)) :
    (sortByMaxScoreDesc lists).Perm lists := by
  have key : ∀ (l acc : List (InvertedList α)),
      (l.foldl (fun acc p => insertByMaxScoreDesc p acc) acc).Perm (l ++ acc) := by
    intro l
    induction l with
    | nil => intro acc; exact List.Perm.refl _
    | cons p ps ih =>
        intro acc
        exact (ih (insertByMaxScoreDesc p acc)).trans
          ((List.Perm.append_left ps (insertByMaxScoreDesc_perm p acc)).trans
            List.perm_middle)
  simpa using key lists []

theorem cursorsMeasure_lt_engineFuel (lists : List (InvertedList α)) :
    cursorsMeasure lists < engineFuel lists := by
  rw [cursorsMeasure, engineFuel]
  have hle : (lists.map (fun lp =>
      lp.flatDocs.countP (fun d => decide (lp.doc_id ≤ d)))).sum ≤
      (lists.map (fun lp => lp.flatDocs.length + lp.block_count + 1)).sum := by
    apply List.sum_le_sum
    intro lp _
    have : lp.flatDocs.countP (fun d => decide (lp.doc_id ≤ d)) ≤
        lp.flatDocs.length := List.countP_le_length _
    omega
  omega

/-- C3 (amended): with sound, nonnegative term-level upper bounds and
freshly positioned cursors, disjunctive MaxScore traversal returns exactly
the exhaustive scan's ranking: the pruning never changes the result. -/
theorem maxscore_exhaustive_equiv (lists : List (InvertedList α)) (k : ℕ)
    (hk : 0 < k)
    (h : ∀ lp ∈ lists, lp.Inv ∧ lp.SoundBound ∧
      lp.doc_id = leastGEQ lp.flatDocs 0) :
    daat_disjunctive_maxscore lists k = exhaustiveScan lists k := by
  cases lists with
  | nil => rfl
  | cons lp0 rest =>
      set lists := lp0 :: rest
      have hperm := sortByMaxScoreDesc_perm lists
      rw [daat_disjunctive_maxscore, if_neg (by simp [lists])]
      obtain ⟨hLp, hLm⟩ := sortedDedup_spec ((lists.map (fun lp => lp.flatDocs)).flatten)
      show sortResults (maxscoreLoop k (engineFuel (sortByMaxScoreDesc lists))
        (sortByMaxScoreDesc lists) []) = exhaustiveScan lists k
      rw [maxscoreLoop_sync hLp (fullScore lists) _ _ _ 0 ?h1 ?h2 ?h3 ?h4]
      case h1 =>
        intro lp hlp
        exact h lp (hperm.mem_iff.mp hlp)
      case h2 =>
        intro d
        rw [hLm d]
        simp only [List.mem_flatten, List.mem_map]
        constructor
        · rintro ⟨s, ⟨lp, hlp, rfl⟩, hds⟩
          exact ⟨lp, hperm.mem_iff.mpr hlp, hds⟩
        · rintro ⟨lp, hlp, hds⟩
          exact ⟨lp.flatDocs, ⟨lp, hperm.mem_iff.mp hlp, rfl⟩, hds⟩
      case h3 =>
        intro d
        rw [fullScore]
        exact ((hperm.map (fun lp => lp.specScore d)).sum_eq).symm
      case h4 => exact cursorsMeasure_lt_engineFuel _
      have hfilter : (sortedDedup
          ((lists.map (fun lp => lp.flatDocs)).flatten)).filter
            (fun d => 0 ≤ d) =
          sortedDedup ((lists.map (fun lp => lp.flatDocs)).flatten) := by
        rw [List.filter_eq_self]
        intro a _
        simp
      rw [hfilter]
      rfl

/-! ### Concrete query scenarios

Cursors are stated over `ℚ` so that the traversals evaluate exactly.  The
structure fields mirror an index built by the pipeline:
`(blockData, block_last_doc_ids, block_max_scores, max_score, idf,
avg_len, k1, b, page_table, df, curr_block_idx, curr_idx,
curr_block_docIDs, curr_block_freqs, doc_id)`. -/

/-- Cursor for the term `alpha` of the corpus 1 = "alpha beta",
2 = "alpha", 3 = "beta": postings (1,1), (2,1); page table lengths
2, 1, 1; `k1 = 1.2`, `b = 0.75`, `avg_len = 4/3`; the IDF factor is the
rational stand-in 1 (the docID sets the claim is about do not depend on
it). -/
def conjAlpha : InvertedList ℚ :=
  ⟨[([1, 2], [1, 1])], [2], [1], 1, 1, 4/3, 6/5, 3/4,
   [(1, 2), (2, 1), (3, 1)], 2, 0, 0, [1, 2], [1, 1], 1⟩

/-- Cursor for the term `beta` of the same corpus: postings (1,1), (3,1). -/
def conjBeta : InvertedList ℚ :=
  ⟨[([1, 3], [1, 1])], [3], [1], 1, 1, 4/3, 6/5, 3/4,
   [(1, 2), (2, 1), (3, 1)], 2, 0, 0, [1, 3], [1, 1], 1⟩

/-- C2: conjunctive DAAT traversal does not return the intersection of the
query terms' posting sets.  On the corpus 1 = "alpha beta", 2 = "alpha",
3 = "beta" with query "alpha beta" and k = 10, the engine returns
documents 1 AND 3, although document 3 is not posted for `alpha`
(the intersection is {1}): when `alpha`'s cursor exhausts in the middle of
an iteration, the `all(...)` test fails for that round, but the next
round recomputes `active_lists` without the exhausted cursor and scores
the remaining `beta`-only document. -/
theorem conjunctive_returns_nonintersection :
    conjAlpha.Inv ∧ conjBeta.Inv ∧
    (daat_conjunctive [conjAlpha, conjBeta] 10).map Prod.fst = [1, 3] ∧
    (3 : ℕ) ∉ conjAlpha.flatDocs := by
  with_unfolding_all decide

/-- A one-posting cursor (docID 1, score 2) whose `max_score = 2` is a
sound upper bound. -/
def cMsA : InvertedList ℚ :=
  ⟨[([1], [1])], [1], [2], 2, 2, 1, 0, 0, [(1, 1), (2, 1)], 1, 0, 0,
   [1], [1], 1⟩

/-- A one-posting cursor (docID 2, score 3) whose stored `max_score = 1`
UNDERSTATES the true score 3 — exactly the situation the indexer's
running `avg_len`/`N` estimates can produce in `write_postings`. -/
def cMsB : InvertedList ℚ :=
  ⟨[([2], [1])], [2], [1], 1, 3, 1, 0, 0, [(1, 1), (2, 1)], 1, 0, 0,
   [2], [1], 2⟩

/-- C3 counterexample: with an understated `max_score` bound (reachable
via the indexer's running-average estimates), MaxScore prunes the true
top-1 document: it returns document 1 with score 2 while the exhaustive
scan returns document 2 with score 3. -/
theorem maxscore_stale_bound_counterexample :
    cMsA.Inv ∧ cMsB.Inv ∧ cMsA.SoundBound ∧
    cMsB.max_score < cMsB.specScore 2 ∧
    daat_disjunctive_maxscore [cMsA, cMsB] 1 = [(1, 2)] ∧
    exhaustiveScan [cMsA, cMsB] 1 = [(2, 3)] := by
  with_unfolding_all decide

/-- Sound-bound variant of `cMsA` for the witness instance. -/
def cMsS1 : InvertedList ℚ :=
  ⟨[([1], [1])], [1], [2], 2, 2, 1, 0, 0, [(1, 1), (2, 1)], 1, 0, 0,
   [1], [1], 1⟩

/-- Sound-bound variant of `cMsB`: `max_score = 3` dominates its score. -/
def cMsS2 : InvertedList ℚ :=
  ⟨[([2], [1])], [2], [3], 3, 3, 1, 0, 0, [(1, 1), (2, 1)], 1, 0, 0,
   [2], [1], 2⟩

/-- Concrete instantiation of `maxscore_exhaustive_equiv`: with sound
bounds the two-term query returns the exhaustive ranking. -/
theorem maxscore_exhaustive_equiv_witness :
    daat_disjunctive_maxscore [cMsS1, cMsS2] 1 =
      exhaustiveScan [cMsS1, cMsS2] 1 :=
  maxscore_exhaustive_equiv [cMsS1, cMsS2] 1 (by decide)
    (by with_unfolding_all decide)

/-- A two-block cursor (block size 1) for one term `z`: postings (5,2) and
(6,1) with per-block BM25 upper bounds 4 and 3 (`k1 = 1`, `b = 0`,
`idf = 3`), all bounds sound. -/
def bwandZ : InvertedList ℚ :=
  ⟨[([5], [2]), ([6], [1])], [5, 6], [4, 3], 4, 3, 1, 1, 0,
   [(5, 1), (6, 1)], 2, 0, 0, [5], [2], 5⟩

/-- C4: Block-Max WAND does not return the same top-k as MaxScore, even
with sound block bounds: bwand sets its skip threshold to `topk[0][0]`
after the FIRST positive-score push (query.py line 206), while the heap
holds only one of k = 2 entries, and then block-max-prunes document 6
(block bound 3 < threshold 4), returning a single result where MaxScore
(whose `min_score_in_heap` stays 0 until the heap is full) returns both
documents. -/
theorem bwand_diverges_from_maxscore :
    bwandZ.Inv ∧ bwandZ.SoundBound ∧
    (0 : ℚ) < bwandZ.specScore 6 ∧
    daat_disjunctive_blockmax_wand [bwandZ] 2 = [(5, 4)] ∧
    daat_disjunctive_maxscore [bwandZ] 2 = [(5, 4), (6, 3)] := by
  with_unfolding_all decide
